import Mathlib

/-!
Verification development for petlib's `cipher.py` (the symmetric-cipher
engine wrapping the OpenSSL EVP interface).

The Python source in `src/petlib/cipher.py` is embedded shallowly below:
byte strings become `List Nat` (values < 256 where a property needs it),
Python exceptions become `Except String` with the exception message as the
string, and the mutable `CipherOperation` objects become explicit state
passing.  The external OpenSSL EVP primitive library is NOT part of the
repository; per the specification (sections 1 and 6) it is an external
collaborator "assumed correct", so it is modelled from the spec's words as
an idealized primitive: stream modes (CTR, GCM) are a keystream XOR, the
block mode (CBC) is a keyed per-block bijection with CBC chaining and
PKCS#7 padding, and the GCM authentication tag is an idealized MAC whose
value changes whenever a single byte of the key, IV, associated data or
ciphertext changes.  The EVP context records a trace of the primitive
calls made on it, so that claims about call ordering and about failures
occurring "before any primitive call" can be stated.
-/

namespace Petlib

/-- Sum of a byte list reduced mod 256 (used by the idealized primitive). -/
def byteSum (l : List Nat) : Nat := l.sum % 256

/-- The two mode classes of the supported ciphers: stream-like (block size 1,
CTR and GCM) and CBC-like (block size 16 with PKCS#7 padding). -/
inductive ModeKind
  | stream
  | cbc
deriving DecidableEq, Repr

/-- Modelled from the spec: the `EVP_CIPHER` descriptor of the external
primitive library (section 6 collaborator interface): block size, key
length, IV length, OpenSSL nid, mode class, and whether the mode is
authenticated (GCM-style). -/
structure EvpCipherAlg where
  cname : String
  nid : Nat
  key_len : Nat
  iv_len : Nat
  block_size : Nat
  kind : ModeKind
  aead : Bool
deriving DecidableEq, Repr

def algAes128Cbc : EvpCipherAlg := ⟨"aes-128-cbc", 419, 16, 16, 16, ModeKind.cbc, false⟩
def algAes128Ctr : EvpCipherAlg := ⟨"aes-128-ctr", 904, 16, 16, 1, ModeKind.stream, false⟩
def algAes128Gcm : EvpCipherAlg := ⟨"aes-128-gcm", 895, 16, 12, 1, ModeKind.stream, true⟩
def algAes192Gcm : EvpCipherAlg := ⟨"aes-192-gcm", 898, 24, 12, 1, ModeKind.stream, true⟩
def algAes256Gcm : EvpCipherAlg := ⟨"aes-256-gcm", 901, 32, 12, 1, ModeKind.stream, true⟩
def algAes128Ccm : EvpCipherAlg := ⟨"aes-128-ccm", 896, 16, 12, 1, ModeKind.stream, true⟩

/-- Boolean prefix test on character lists. -/
def isPrefixB : List Char → List Char → Bool
  | [], _ => true
  | _ :: _, [] => false
  | a :: as, b :: bs => a = b && isPrefixB as bs

/-- Boolean contiguous-substring test on character lists. -/
def containsSeqB (needle : List Char) : List Char → Bool
  | [] => isPrefixB needle []
  | c :: cs => isPrefixB needle (c :: cs) || containsSeqB needle cs

/-- `needle in hay` of Python, on strings. -/
def strContains (hay needle : String) : Bool := containsSeqB needle.data hay.data

/-- ASCII lowercasing of one character (Python's `str.lower` on the ASCII
names used here). -/
def lowerChar (c : Char) : Char :=
  if 65 ≤ c.toNat ∧ c.toNat ≤ 90 then Char.ofNat (c.toNat + 32) else c

/-- ASCII lowercasing of a string (`name.lower()` of the source). -/
def lowerString (s : String) : String := ⟨s.data.map lowerChar⟩

/-- Modelled from the spec: `EVP_get_cipherbyname` of the external primitive
library ("lookup_cipher_by_name(name) -> handle|null", section 6); the
lookup is case-insensitive and returns null for unrecognized names.  The
table holds the ciphers exercised by the repository (tests and fixed
constructors) plus the CCM variant that resolution must reject. -/
def evpGetCipherByName (name : String) : Option EvpCipherAlg :=
  let lc := lowerString name
  if lc = "aes-128-cbc" then some algAes128Cbc
  else if lc = "aes-128-ctr" then some algAes128Ctr
  else if lc = "aes-128-gcm" then some algAes128Gcm
  else if lc = "aes-192-gcm" then some algAes192Gcm
  else if lc = "aes-256-gcm" then some algAes256Gcm
  else if lc = "aes-128-ccm" then some algAes128Ccm
  else none

/-- Modelled from the spec: the keystream byte of the idealized stream
primitive (CTR/GCM) at position `n` under `key`/`iv`. -/
def keystream (key iv : List Nat) (n : Nat) : Nat :=
  (byteSum key + 2 * byteSum iv + 3 * n + 1) % 256

/-- XOR a byte list against the keystream starting at offset `off`. -/
def streamXor (key iv : List Nat) : Nat → List Nat → List Nat
  | _, [] => []
  | off, b :: bs => (b ^^^ keystream key iv off) :: streamXor key iv (off + 1) bs

/-- Modelled from the spec: the 16-byte whitening pad of the idealized CBC
block cipher derived from the key. -/
def padK (key : List Nat) : List Nat :=
  (List.range 16).map (fun i => (byteSum key + 7 * i) % 256)

/-- Pointwise XOR of two byte lists. -/
def xorZip (a b : List Nat) : List Nat := List.zipWith (fun x y => x ^^^ y) a b

/-- Idealized CBC block encryption: XOR with the chaining value, then the
keyed block bijection (XOR with the key pad). -/
def blockEnc (key prev blk : List Nat) : List Nat := xorZip (xorZip blk prev) (padK key)

/-- Inverse of `blockEnc`. -/
def blockDec (key prev cip : List Nat) : List Nat := xorZip (xorZip cip (padK key)) prev

/-- CBC-encrypt a list of 16-byte blocks with chaining value `ch`. -/
def cbcEncBlocks (key : List Nat) : List Nat → List (List Nat) → List (List Nat)
  | _, [] => []
  | ch, b :: bs =>
    let c := blockEnc key ch b
    c :: cbcEncBlocks key c bs

/-- CBC-decrypt a list of 16-byte blocks with chaining value `ch`. -/
def cbcDecBlocks (key : List Nat) : List Nat → List (List Nat) → List (List Nat)
  | _, [] => []
  | ch, c :: cs => blockDec key ch c :: cbcDecBlocks key c cs

/-- Split a byte list into chunks of 16 (the last chunk may be short);
`fuel` bounds the number of chunks and is instantiated with the list
length. -/
def toBlocksAux : Nat → List Nat → List (List Nat)
  | 0, _ => []
  | _, [] => []
  | fuel + 1, a :: t => ((a :: t).take 16) :: toBlocksAux fuel ((a :: t).drop 16)

/-- Split a byte list into chunks of 16 (the last chunk may be short). -/
def toBlocks (l : List Nat) : List (List Nat) := toBlocksAux l.length l

theorem toBlocksAux_fuel (f1 : Nat) : ∀ (f2 : Nat) (l : List Nat),
    l.length ≤ f1 → l.length ≤ f2 → toBlocksAux f1 l = toBlocksAux f2 l := by
  induction f1 with
  | zero =>
    intro f2 l h1 _
    have hl : l = [] := by
      cases l with
      | nil => rfl
      | cons a t => simp at h1
    subst hl
    cases f2 <;> rfl
  | succ n ih =>
    intro f2 l h1 h2
    cases l with
    | nil => cases f2 <;> rfl
    | cons a t =>
      cases f2 with
      | zero => simp at h2
      | succ m =>
        simp only [List.length_cons] at h1 h2
        simp only [toBlocksAux]
        rw [ih m ((a :: t).drop 16) (by simp [List.length_drop]; omega)
          (by simp [List.length_drop]; omega)]

/-- PKCS#7 pad length for a message of length `n`: in `[1, 16]`. -/
def padLenOf (n : Nat) : Nat := 16 - n % 16

/-- PKCS#7-pad a message to a multiple of 16 bytes. -/
def padMsg (m : List Nat) : List Nat :=
  m ++ List.replicate (padLenOf m.length) (padLenOf m.length)

/-- Check and strip the PKCS#7 padding of the final block. -/
def unpadCheck (blk : List Nat) : Option (List Nat) :=
  let p := blk.getLastD 0
  if 1 ≤ p ∧ p ≤ 16 ∧ p ≤ blk.length ∧ blk.drop (blk.length - p) = List.replicate p p
  then some (blk.take (blk.length - p))
  else none

/-- Modelled from the spec: the idealized GCM authentication tag over
(key, iv, associated data, ciphertext).  16 bytes; a single-byte change of
the associated data or of the ciphertext changes the corresponding byte
sum, hence the tag ("assumed correct" authenticity, spec section 6). -/
def gcmTag (key iv aad ct : List Nat) : List Nat :=
  [byteSum aad, byteSum ct, aad.length % 256, ct.length % 256,
   byteSum key, byteSum iv, 0, 0, 0, 0, 0, 0, 0, 0, 0, 0]

/-- One call into the primitive library, as recorded in the context trace
(spec section 6 collaborator interface). -/
inductive PrimCall
  | ctxNew
  | ctxInit
  | cipherInit (algGiven : Bool) (key iv : Option (List Nat)) (enc : Nat)
  | ctrl (code : Nat) (arg : Nat)
  | cupdate (outNull : Bool) (inl : Nat)
  | cfinal
  | cleanup
  | free
deriving DecidableEq, Repr

/-- Modelled from the spec: the state of one `EVP_CIPHER_CTX` of the
external primitive library, together with the trace of primitive calls
made on it.  `pending`/`chain`/`held` model the EVP block buffering of CBC
(input buffered up to a block; decryption withholds the last decrypted
block for padding removal); `dataIn` accumulates the payload fed so far
(for the stream keystream offset and the GCM tag); `aad` accumulates
associated data. -/
structure EvpCtx where
  alg : Option EvpCipherAlg := none
  enc : Nat := 0
  key : List Nat := []
  iv : List Nat := []
  ivlenSet : Nat := 0
  aad : List Nat := []
  dataIn : List Nat := []
  pending : List Nat := []
  chain : List Nat := []
  held : Option (List Nat) := none
  tagSet : Option (List Nat) := none
  finalled : Bool := false
  freed : Bool := false
  calls : List PrimCall := []
deriving DecidableEq, Repr

def EVP_CTRL_GCM_SET_IVLEN : Nat := 9
def EVP_CTRL_GCM_GET_TAG : Nat := 16
def EVP_CTRL_GCM_SET_TAG : Nat := 17

/-- `EVP_CIPHER_CTX_new` followed by `EVP_CIPHER_CTX_init` (the
`CipherOperation.__init__` allocation). -/
def evpCtxNewInit : EvpCtx := { calls := [PrimCall.ctxNew, PrimCall.ctxInit] }

/-- The ciphertext processed so far by a GCM context: on encrypt the
keystream XOR of the plaintext fed in, on decrypt the ciphertext fed in. -/
def evpCiphertextOf (ctx : EvpCtx) : List Nat :=
  if ctx.enc = 1 then streamXor ctx.key ctx.iv 0 ctx.dataIn else ctx.dataIn

/-- Modelled from the spec: `EVP_CipherInit_ex`.  A null algorithm argument
keeps the previously configured one (two-phase GCM initialization); null
key/iv keep the previous values; a (re-)initialization resets the
streaming state. -/
def evpCipherInitApply (ctx : EvpCtx) (a : EvpCipherAlg) (algGiven : Bool)
    (keyp ivp : Option (List Nat)) (enc : Nat) : EvpCtx :=
  { ctx with
      alg := some a
      enc := enc
      key := keyp.getD ctx.key
      iv := ivp.getD ctx.iv
      ivlenSet := if algGiven then a.iv_len else ctx.ivlenSet
      chain := ivp.getD ctx.iv
      aad := []
      dataIn := []
      pending := []
      held := none
      tagSet := none
      finalled := false }

def evpCipherInit (ctx0 : EvpCtx) (algp : Option EvpCipherAlg)
    (keyp ivp : Option (List Nat)) (enc : Nat) : Nat × EvpCtx :=
  let ctx := { ctx0 with calls := ctx0.calls ++ [PrimCall.cipherInit algp.isSome keyp ivp enc] }
  match algp with
  | some a => (1, evpCipherInitApply ctx a true keyp ivp enc)
  | none =>
    match ctx.alg with
    | some a => (1, evpCipherInitApply ctx a false keyp ivp enc)
    | none => (0, ctx)

/-- Modelled from the spec: `EVP_CIPHER_CTX_ctrl` with the GCM control
codes (set nonce length, get tag, set tag), following the argument
validation of OpenSSL's `aes_gcm_ctrl` (nonce length must be positive, tag
length in `[1,16]`, tag retrieval only on a finalized encrypt context, tag
installation only on a decrypt context). -/
def evpCtxCtrl (ctx0 : EvpCtx) (code arg : Nat) (ptr : Option (List Nat)) :
    Nat × EvpCtx × List Nat :=
  let ctx := { ctx0 with calls := ctx0.calls ++ [PrimCall.ctrl code arg] }
  match ctx.alg with
  | none => (0, ctx, [])
  | some a =>
    if a.aead = false then (0, ctx, [])
    else if code = EVP_CTRL_GCM_SET_IVLEN then
      if arg = 0 then (0, ctx, []) else (1, { ctx with ivlenSet := arg }, [])
    else if code = EVP_CTRL_GCM_GET_TAG then
      if arg = 0 ∨ 16 < arg ∨ ctx.enc ≠ 1 ∨ ctx.finalled = false then (0, ctx, [])
      else (1, ctx, (gcmTag ctx.key ctx.iv ctx.aad (evpCiphertextOf ctx)).take arg)
    else if code = EVP_CTRL_GCM_SET_TAG then
      match ptr with
      | none => (0, ctx, [])
      | some t =>
        if arg = 0 ∨ 16 < arg ∨ ctx.enc = 1 then (0, ctx, [])
        else (1, { ctx with tagSet := some (t.take arg) }, [])
    else (0, ctx, [])

/-- Modelled from the spec: `EVP_CipherUpdate`.  With a null output buffer
it absorbs associated data (authenticated contexts only, and only before
any payload, as in OpenSSL's `CRYPTO_gcm128_aad`); with a real output
buffer it processes payload: stream modes emit the keystream XOR
immediately, CBC buffers to block boundaries (and on decrypt withholds the
last decrypted block when the input so far is block-aligned, as EVP does
for padding removal).  Returns (return code, new context, bytes produced). -/
def evpCipherUpdate (ctx0 : EvpCtx) (outNull : Bool) (data : List Nat) :
    Nat × EvpCtx × List Nat :=
  let ctx := { ctx0 with calls := ctx0.calls ++ [PrimCall.cupdate outNull data.length] }
  match ctx.alg with
  | none => (0, ctx, [])
  | some a =>
    if outNull then
      if a.aead = true ∧ ctx.dataIn = [] ∧ ctx.finalled = false then
        (1, { ctx with aad := ctx.aad ++ data }, [])
      else (0, ctx, [])
    else
      match a.kind with
      | ModeKind.stream =>
        let out := streamXor ctx.key ctx.iv ctx.dataIn.length data
        (1, { ctx with dataIn := ctx.dataIn ++ data }, out)
      | ModeKind.cbc =>
        if ctx.finalled then (0, ctx, [])
        else if ctx.enc = 1 then
          let buf := ctx.pending ++ data
          let n := buf.length / 16 * 16
          let outBlocks := cbcEncBlocks ctx.key ctx.chain (toBlocks (buf.take n))
          (1, { ctx with pending := buf.drop n
                         chain := outBlocks.getLastD ctx.chain
                         dataIn := ctx.dataIn ++ data }, outBlocks.flatten)
        else
          let buf := ctx.pending ++ data
          let n := buf.length / 16 * 16
          let inBlocks := toBlocks (buf.take n)
          let plains := cbcDecBlocks ctx.key ctx.chain inBlocks
          let allOut := (match ctx.held with | some h => [h] | none => []) ++ plains
          if buf.length % 16 = 0 then
            (1, { ctx with pending := []
                           chain := inBlocks.getLastD ctx.chain
                           held := allOut.getLast?
                           dataIn := ctx.dataIn ++ data }, allOut.dropLast.flatten)
          else
            (1, { ctx with pending := buf.drop n
                           chain := inBlocks.getLastD ctx.chain
                           held := none
                           dataIn := ctx.dataIn ++ data }, allOut.flatten)

/-- Modelled from the spec: `EVP_CipherFinal_ex`.  Stream modes flush
nothing; GCM encrypt fixes the tag, GCM decrypt verifies the installed tag
against the computed one and fails when none is installed or they differ
(fail-closed, spec section 4.5); CBC encrypt emits the padded final block,
CBC decrypt validates and strips the padding of the withheld block. -/
def evpCipherFinal (ctx0 : EvpCtx) : Nat × EvpCtx × List Nat :=
  let ctx := { ctx0 with calls := ctx0.calls ++ [PrimCall.cfinal] }
  match ctx.alg with
  | none => (0, ctx, [])
  | some a =>
    if a.aead = true then
      if ctx.enc = 1 then (1, { ctx with finalled := true }, [])
      else
        match ctx.tagSet with
        | none => (0, ctx, [])
        | some t =>
          if t = (gcmTag ctx.key ctx.iv ctx.aad (evpCiphertextOf ctx)).take t.length
          then (1, { ctx with finalled := true }, [])
          else (0, ctx, [])
    else
      match a.kind with
      | ModeKind.stream => (1, ctx, [])
      | ModeKind.cbc =>
        if ctx.finalled then (0, ctx, [])
        else if ctx.enc = 1 then
          let p := 16 - ctx.pending.length
          (1, { ctx with finalled := true, pending := [] },
           blockEnc ctx.key ctx.chain (ctx.pending ++ List.replicate p p))
        else
          if ctx.pending ≠ [] then (0, ctx, [])
          else
            match ctx.held with
            | none => (0, ctx, [])
            | some blk =>
              match unpadCheck blk with
              | none => (0, ctx, [])
              | some outp => (1, { ctx with finalled := true, held := none }, outp)

/-- `EVP_CIPHER_CTX_cleanup` (returns 1). -/
def evpCtxCleanup (ctx : EvpCtx) : Nat × EvpCtx :=
  (1, { ctx with calls := ctx.calls ++ [PrimCall.cleanup] })

/-- `EVP_CIPHER_CTX_free`: the context resource is released. -/
def evpCtxFree (ctx : EvpCtx) : EvpCtx :=
  { ctx with freed := true, calls := ctx.calls ++ [PrimCall.free] }

/-- The `Cipher` class of `cipher.py`: a resolved algorithm handle plus the
`gcm` flag.  (`__slots__ = ["alg", "gcm"]`.) -/
structure Cipher where
  alg : EvpCipherAlg
  gcm : Bool
deriving DecidableEq, Repr

/-- `Cipher.__init__(name)`: resolve the name through the primitive
library; an unrecognized name raises `Exception("Unknown cipher: <name>")`;
the `gcm` flag is set from a case-insensitive substring match; a name
containing "ccm" (case-insensitively) raises
`Exception("CCM mode not supported")`. -/
def mkCipher (name : String) : Except String Cipher :=
  match evpGetCipherByName name with
  | none => Except.error ("Unknown cipher: " ++ name)
  | some alg =>
    let g := strContains (lowerString name) "gcm"
    if strContains (lowerString name) "ccm" then Except.error "CCM mode not supported"
    else Except.ok ⟨alg, g⟩

/-- `Cipher.aes_128_gcm()`: fixed constructor bypassing name lookup. -/
def Cipher.aes_128_gcm : Cipher := ⟨algAes128Gcm, true⟩

/-- `Cipher.aes_192_gcm()`. -/
def Cipher.aes_192_gcm : Cipher := ⟨algAes192Gcm, true⟩

/-- `Cipher.aes_256_gcm()`. -/
def Cipher.aes_256_gcm : Cipher := ⟨algAes256Gcm, true⟩

def Cipher.len_IV (c : Cipher) : Nat := c.alg.iv_len
def Cipher.len_key (c : Cipher) : Nat := c.alg.key_len
def Cipher.len_block (c : Cipher) : Nat := c.alg.block_size
def Cipher.get_nid (c : Cipher) : Nat := c.alg.nid

/-- The `CipherOperation` class: the owned EVP context plus the
back-reference to the `Cipher` (set by `Cipher.op`). -/
structure CipherOperation where
  ctx : EvpCtx
  cipher : Option Cipher
deriving DecidableEq, Repr

/-- `CipherOperation.__init__`: allocate and init the context. -/
def CipherOperation.new : CipherOperation := ⟨evpCtxNewInit, none⟩

/-- `Cipher.op(key, iv, enc)` with the final EVP context also returned, so
that the primitive-call trace is observable on the exception paths too
(in Python the exception propagates while the already-allocated context
object still exists).  Checks, via `_check`, key length, direction, and —
for non-GCM ciphers only — IV length; every `_check` failure raises
`Exception("Cipher exception")`.  GCM ciphers use the two-phase
initialization with the nonce-length control message in between. -/
def Cipher.opAux (c : Cipher) (key iv : List Nat) (enc : Nat) :
    Except String CipherOperation × EvpCtx :=
  let cop := CipherOperation.new
  if ¬ (key.length = c.len_key) then (Except.error "Cipher exception", cop.ctx)
  else if ¬ (enc = 0 ∨ enc = 1) then (Except.error "Cipher exception", cop.ctx)
  else if c.gcm = false then
    if ¬ (iv.length = c.len_IV) then (Except.error "Cipher exception", cop.ctx)
    else
      let r1 := evpCipherInit cop.ctx (some c.alg) (some key) (some iv) enc
      if r1.1 = 1 then (Except.ok ⟨r1.2, some c⟩, r1.2)
      else (Except.error "Cipher exception", r1.2)
  else
    let r1 := evpCipherInit cop.ctx (some c.alg) none none enc
    if r1.1 ≠ 1 then (Except.error "Cipher exception", r1.2)
    else
      let r2 := evpCtxCtrl r1.2 EVP_CTRL_GCM_SET_IVLEN iv.length none
      if r2.1 ≠ 1 then (Except.error "Cipher exception", r2.2.1)
      else
        let r3 := evpCipherInit r2.2.1 none (some key) (some iv) enc
        if r3.1 ≠ 1 then (Except.error "Cipher exception", r3.2)
        else (Except.ok ⟨r3.2, some c⟩, r3.2)

/-- `Cipher.op`. -/
def Cipher.op (c : Cipher) (key iv : List Nat) (enc : Nat) :
    Except String CipherOperation :=
  (c.opAux key iv enc).1

/-- `Cipher.enc`. -/
def Cipher.enc (c : Cipher) (key iv : List Nat) : Except String CipherOperation :=
  c.op key iv 1

/-- `Cipher.dec`. -/
def Cipher.dec (c : Cipher) (key iv : List Nat) : Except String CipherOperation :=
  c.op key iv 0

/-- `CipherOperation.update_associated(data)` with the final EVP context
also returned (observable trace on the exception path). -/
def CipherOperation.update_associatedAux (op : CipherOperation) (data : List Nat) :
    Except String CipherOperation × EvpCtx :=
  let r := evpCipherUpdate op.ctx true data
  (if r.1 = 1 then Except.ok { op with ctx := r.2.1 }
   else Except.error "Cipher exception", r.2.1)

/-- `CipherOperation.update_associated(data)`. -/
def CipherOperation.update_associated (op : CipherOperation) (data : List Nat) :
    Except String CipherOperation :=
  (op.update_associatedAux data).1

/-- `CipherOperation.update(data)`: allocates an output buffer of
`len(data) + block_len - 1` bytes, passes it to the primitive, and returns
the first `outl` bytes of it, where `outl` is the produced length written
back by the primitive. -/
def CipherOperation.update (op : CipherOperation) (data : List Nat) :
    Except String (List Nat × CipherOperation) :=
  match op.cipher with
  | none => Except.error "AttributeError: NoneType object has no attribute len_block"
  | some c =>
    let block_len := c.len_block
    let alloc_len := data.length + block_len - 1
    let r := evpCipherUpdate op.ctx false data
    if r.1 = 1 then
      let buffer := r.2.2 ++ List.replicate (alloc_len - r.2.2.length) 0
      Except.ok (buffer.take r.2.2.length, { op with ctx := r.2.1 })
    else Except.error "Cipher exception"

/-- `CipherOperation.finalize()`: allocates a `block_len` buffer and
returns the first `outl` bytes of it. -/
def CipherOperation.finalize (op : CipherOperation) :
    Except String (List Nat × CipherOperation) :=
  match op.cipher with
  | none => Except.error "AttributeError: NoneType object has no attribute len_block"
  | some c =>
    let alloc_len := c.len_block
    let r := evpCipherFinal op.ctx
    if r.1 = 1 then
      let buffer := r.2.2 ++ List.replicate (alloc_len - r.2.2.length) 0
      Except.ok (buffer.take r.2.2.length, { op with ctx := r.2.1 })
    else Except.error "Cipher exception"

/-- `CipherOperation.get_tag(tag_len)`: retrieves the tag through the
control interface and returns the whole `tag_len`-byte buffer. -/
def CipherOperation.get_tag (op : CipherOperation) (tag_len : Nat) :
    Except String (List Nat × CipherOperation) :=
  let r := evpCtxCtrl op.ctx EVP_CTRL_GCM_GET_TAG tag_len none
  if r.1 = 1 then
    let buffer := r.2.2 ++ List.replicate (tag_len - r.2.2.length) 0
    Except.ok (buffer, { op with ctx := r.2.1 })
  else Except.error "Cipher exception"

/-- `CipherOperation.set_tag(tag)`. -/
def CipherOperation.set_tag (op : CipherOperation) (tag : List Nat) :
    Except String CipherOperation :=
  let r := evpCtxCtrl op.ctx EVP_CTRL_GCM_SET_TAG tag.length (some tag)
  if r.1 = 1 then Except.ok { op with ctx := r.2.1 }
  else Except.error "Cipher exception"

/-- `CipherOperation.__del__`: cleanup (checked) then free. -/
def CipherOperation.del (op : CipherOperation) : Except String CipherOperation :=
  let r := evpCtxCleanup op.ctx
  if r.1 = 1 then Except.ok { op with ctx := evpCtxFree r.2 }
  else Except.error "Cipher exception"

/-- Python truthiness of the optional `assoc` argument (`if assoc:`):
`None` and the empty byte string are falsy. -/
def pyTruthy : Option (List Nat) → Bool
  | none => false
  | some l => !l.isEmpty

/-- `Cipher.quick_gcm_enc(key, iv, msg, assoc, tagl)`.  When `assoc` is
truthy the source evaluates `dec.update_associated(assoc)` where `dec` is
an undefined name, so Python raises a `NameError` at that point. -/
def Cipher.quick_gcm_enc (c : Cipher) (key iv msg : List Nat)
    (assoc : Option (List Nat)) (tagl : Nat) :
    Except String (List Nat × List Nat) := do
  let e ← c.enc key iv
  if pyTruthy assoc then
    throw "NameError: global name dec is not defined"
  else
    let r1 ← e.update msg
    let r2 ← r1.2.finalize
    let r3 ← r2.2.get_tag tagl
    pure (r1.1, r3.1)

/-- `Cipher.quick_gcm_dec(key, iv, cip, tag, assoc)`. -/
def Cipher.quick_gcm_dec (c : Cipher) (key iv cip tag : List Nat)
    (assoc : Option (List Nat)) : Except String (List Nat) := do
  let d ← c.dec key iv
  let d ← if pyTruthy assoc then d.update_associated (assoc.getD []) else pure d
  let r1 ← d.update cip
  let d ← r1.2.set_tag tag
  let r2 ← d.finalize
  let _ := r2
  pure r1.1

/-- The authenticated-encrypt composition of spec sections 4.2 to 4.6:
begin(key, iv, encrypt), absorb(aad), update(msg), finalize,
get_tag(16). -/
def gcmSeal (c : Cipher) (key iv aad msg : List Nat) :
    Except String (List Nat × List Nat) := do
  let e ← c.enc key iv
  let e ← e.update_associated aad
  let r1 ← e.update msg
  let r2 ← r1.2.finalize
  let r3 ← r2.2.get_tag 16
  pure (r1.1, r3.1)

/-- The round-trip composition of spec section 8: an encrypt session
(update then finalize, outputs concatenated) followed by a decrypt session
(update then finalize, outputs concatenated) on its output. -/
def encThenDec (c : Cipher) (key iv m : List Nat) : Except String (List Nat) := do
  let e ← c.enc key iv
  let r1 ← e.update m
  let r2 ← r1.2.finalize
  let d ← c.dec key iv
  let s1 ← d.update (r1.1 ++ r2.1)
  let s2 ← s1.2.finalize
  pure (s1.1 ++ s2.1)

/-! ### Generic lemmas about the idealized primitive -/

theorem streamXor_length (key iv : List Nat) (off : Nat) (l : List Nat) :
    (streamXor key iv off l).length = l.length := by
  induction l generalizing off with
  | nil => rfl
  | cons b bs ih => simp [streamXor, ih]

theorem streamXor_streamXor (key iv : List Nat) (off : Nat) (l : List Nat) :
    streamXor key iv off (streamXor key iv off l) = l := by
  induction l generalizing off with
  | nil => rfl
  | cons b bs ih => simp [streamXor, ih, Nat.xor_cancel_right]

theorem keystream_lt (key iv : List Nat) (n : Nat) : keystream key iv n < 256 :=
  Nat.mod_lt _ (by omega)

theorem streamXor_mem_lt (key iv : List Nat) (off : Nat) (l : List Nat)
    (hl : ∀ x ∈ l, x < 256) : ∀ x ∈ streamXor key iv off l, x < 256 := by
  induction l generalizing off with
  | nil => simp [streamXor]
  | cons b bs ih =>
    intro x hx
    simp only [streamXor, List.mem_cons] at hx
    rcases hx with hx | hx
    · subst hx
      have hb : b < 2 ^ 8 := by
        have := hl b (by simp)
        omega
      have hk : keystream key iv off < 2 ^ 8 := by
        have := keystream_lt key iv off
        omega
      have := Nat.xor_lt_two_pow hb hk
      omega
    · exact ih (off + 1) (fun x hx => hl x (by simp [hx])) x hx

theorem xorZip_length (a b : List Nat) : (xorZip a b).length = min a.length b.length := by
  simp [xorZip]

theorem padK_length (key : List Nat) : (padK key).length = 16 := by simp [padK]

theorem xorZip_xorZip_cancel (a b : List Nat) (h : a.length ≤ b.length) :
    xorZip (xorZip a b) b = a := by
  induction a generalizing b with
  | nil => simp [xorZip]
  | cons x xs ih =>
    cases b with
    | nil => simp at h
    | cons y ys =>
      simp only [xorZip, List.zipWith] at *
      simp only [List.length_cons, Nat.add_le_add_iff_right] at h
      rw [Nat.xor_cancel_right]
      exact congrArg (x :: ·) (ih ys h)

theorem blockEnc_length (key prev blk : List Nat) :
    (blockEnc key prev blk).length = min (min blk.length prev.length) 16 := by
  simp [blockEnc, xorZip_length, padK_length]

theorem blockEnc_length16 (key prev blk : List Nat) (hb : blk.length = 16)
    (hp : prev.length = 16) : (blockEnc key prev blk).length = 16 := by
  simp [blockEnc_length, hb, hp]

theorem blockDec_length_le (key prev cip : List Nat) :
    (blockDec key prev cip).length ≤ cip.length := by
  simp only [blockDec, xorZip_length]
  omega

theorem blockDec_length_le16 (key prev cip : List Nat) :
    (blockDec key prev cip).length ≤ 16 := by
  have := padK_length key
  simp only [blockDec, xorZip_length]
  omega

theorem blockDec_blockEnc (key prev blk : List Nat) (hb : blk.length = 16)
    (hp : prev.length = 16) : blockDec key prev (blockEnc key prev blk) = blk := by
  have h1 : (xorZip blk prev).length = 16 := by simp [xorZip_length, hb, hp]
  have h2 : xorZip (xorZip (xorZip blk prev) (padK key)) (padK key) = xorZip blk prev :=
    xorZip_xorZip_cancel _ _ (by simp [h1, padK_length])
  simp only [blockDec, blockEnc, h2]
  exact xorZip_xorZip_cancel _ _ (by simp [hb, hp])

theorem cbcEncBlocks_length (key ch : List Nat) (bs : List (List Nat)) :
    (cbcEncBlocks key ch bs).length = bs.length := by
  induction bs generalizing ch with
  | nil => rfl
  | cons b bs ih => simp [cbcEncBlocks, ih]

theorem cbcDecBlocks_length (key ch : List Nat) (bs : List (List Nat)) :
    (cbcDecBlocks key ch bs).length = bs.length := by
  induction bs generalizing ch with
  | nil => rfl
  | cons b bs ih => simp [cbcDecBlocks, ih]

theorem cbcEncBlocks_mem_length (key ch : List Nat) (bs : List (List Nat))
    (hch : ch.length = 16) (hbs : ∀ b ∈ bs, b.length = 16) :
    ∀ cb ∈ cbcEncBlocks key ch bs, cb.length = 16 := by
  induction bs generalizing ch with
  | nil => simp [cbcEncBlocks]
  | cons b bs ih =>
    intro cb hcb
    have hb : b.length = 16 := hbs b (by simp)
    have henc : (blockEnc key ch b).length = 16 := blockEnc_length16 _ _ _ hb hch
    simp only [cbcEncBlocks, List.mem_cons] at hcb
    rcases hcb with hcb | hcb
    · subst hcb; exact henc
    · exact ih (blockEnc key ch b) henc (fun x hx => hbs x (by simp [hx])) cb hcb

theorem cbcDec_cbcEnc (key ch : List Nat) (bs : List (List Nat))
    (hch : ch.length = 16) (hbs : ∀ b ∈ bs, b.length = 16) :
    cbcDecBlocks key ch (cbcEncBlocks key ch bs) = bs := by
  induction bs generalizing ch with
  | nil => rfl
  | cons b bs ih =>
    have hb : b.length = 16 := hbs b (by simp)
    have henc : (blockEnc key ch b).length = 16 := blockEnc_length16 _ _ _ hb hch
    simp only [cbcEncBlocks, cbcDecBlocks]
    rw [blockDec_blockEnc key ch b hb hch]
    exact congrArg (b :: ·) (ih (blockEnc key ch b) henc (fun x hx => hbs x (by simp [hx])))

theorem cbcEncBlocks_append (key ch : List Nat) (bs cs : List (List Nat)) :
    cbcEncBlocks key ch (bs ++ cs) =
      cbcEncBlocks key ch bs ++
        cbcEncBlocks key ((cbcEncBlocks key ch bs).getLastD ch) cs := by
  induction bs generalizing ch with
  | nil => simp [cbcEncBlocks]
  | cons b bs ih =>
    simp only [List.cons_append, cbcEncBlocks, List.append_eq]
    rw [ih (blockEnc key ch b)]
    cases hbs : cbcEncBlocks key (blockEnc key ch b) bs with
    | nil => simp [hbs, List.getLastD]
    | cons x xs =>
      simp [List.getLastD, List.getLast?_eq_getLast, List.getLast_cons]

theorem cbcEncBlocks_flatten_le (key ch : List Nat) (bs : List (List Nat)) :
    (cbcEncBlocks key ch bs).flatten.length ≤ bs.flatten.length := by
  induction bs generalizing ch with
  | nil => simp [cbcEncBlocks]
  | cons b bs ih =>
    simp only [cbcEncBlocks, List.flatten_cons, List.length_append]
    have h1 : (blockEnc key ch b).length ≤ b.length := by
      simp only [blockEnc, xorZip_length]
      omega
    have h2 := ih (blockEnc key ch b)
    omega

theorem cbcDecBlocks_flatten_le (key ch : List Nat) (bs : List (List Nat)) :
    (cbcDecBlocks key ch bs).flatten.length ≤ bs.flatten.length := by
  induction bs generalizing ch with
  | nil => simp [cbcDecBlocks]
  | cons b bs ih =>
    simp only [cbcDecBlocks, List.flatten_cons, List.length_append]
    have h1 := blockDec_length_le key ch b
    have h2 := ih b
    omega

theorem cbcDecBlocks_mem_le16 (key ch : List Nat) (bs : List (List Nat)) :
    ∀ p ∈ cbcDecBlocks key ch bs, p.length ≤ 16 := by
  induction bs generalizing ch with
  | nil => simp [cbcDecBlocks]
  | cons b bs ih =>
    intro p hp
    simp only [cbcDecBlocks, List.mem_cons] at hp
    rcases hp with hp | hp
    · subst hp; exact blockDec_length_le16 key ch b
    · exact ih b p hp

/-! ### Lemmas about `toBlocks` and the padding -/

theorem toBlocks_nil : toBlocks [] = [] := rfl

theorem toBlocks_ne_nil_eq (l : List Nat) (h : l ≠ []) :
    toBlocks l = l.take 16 :: toBlocks (l.drop 16) := by
  cases l with
  | nil => exact absurd rfl h
  | cons a t =>
    show toBlocksAux (t.length + 1) (a :: t) = _
    simp only [toBlocksAux]
    rw [toBlocksAux_fuel t.length ((a :: t).drop 16).length ((a :: t).drop 16)
      (by simp [List.length_drop]) (le_refl _)]
    rfl

theorem toBlocks_small (l : List Nat) (h : l ≠ []) (hl : l.length ≤ 16) :
    toBlocks l = [l] := by
  rw [toBlocks_ne_nil_eq l h, List.take_of_length_le hl, List.drop_eq_nil_of_le hl,
    toBlocks_nil]

theorem toBlocks_flatten (l : List Nat) : (toBlocks l).flatten = l := by
  have H : ∀ (n : Nat) (l : List Nat), l.length ≤ n → (toBlocks l).flatten = l := by
    intro n
    induction n with
    | zero =>
      intro l hl
      have : l = [] := by
        cases l with
        | nil => rfl
        | cons a t => simp at hl
      subst this
      simp [toBlocks_nil]
    | succ n ih =>
      intro l hl
      by_cases h : l = []
      · subst h; simp [toBlocks_nil]
      · rw [toBlocks_ne_nil_eq l h, List.flatten_cons,
          ih (l.drop 16) (by simp [List.length_drop]; omega)]
        exact List.take_append_drop 16 l
  exact H l.length l le_rfl

theorem toBlocks_append16 (a b : List Nat) (ha : 16 ∣ a.length) :
    toBlocks (a ++ b) = toBlocks a ++ toBlocks b := by
  have H : ∀ (n : Nat) (a : List Nat), a.length ≤ n → 16 ∣ a.length →
      toBlocks (a ++ b) = toBlocks a ++ toBlocks b := by
    intro n
    induction n with
    | zero =>
      intro a hl _
      have : a = [] := by
        cases a with
        | nil => rfl
        | cons x t => simp at hl
      subst this
      simp [toBlocks_nil]
    | succ n ih =>
      intro a hl hdvd
      by_cases h : a = []
      · subst h; simp [toBlocks_nil]
      · have hpos : 0 < a.length := List.length_pos.mpr h
        have h16 : 16 ≤ a.length := Nat.le_of_dvd hpos hdvd
        by_cases hab : a ++ b = []
        · simp at hab
          exact absurd hab.1 h
        · rw [toBlocks_ne_nil_eq _ hab, toBlocks_ne_nil_eq a h,
            List.take_append_of_le_length h16, List.drop_append_of_le_length h16]
          rw [ih (a.drop 16) (by simp [List.length_drop]; omega)
            (by simp [List.length_drop]; exact (Nat.dvd_sub' hdvd (dvd_refl 16))),
            List.cons_append]
  exact H a.length a le_rfl ha

theorem toBlocks_mem_length (l : List Nat) (hdvd : 16 ∣ l.length) :
    ∀ b ∈ toBlocks l, b.length = 16 := by
  have H : ∀ (n : Nat) (l : List Nat), l.length ≤ n → 16 ∣ l.length →
      ∀ b ∈ toBlocks l, b.length = 16 := by
    intro n
    induction n with
    | zero =>
      intro l hl _
      have : l = [] := by
        cases l with
        | nil => rfl
        | cons a t => simp at hl
      subst this
      simp [toBlocks_nil]
    | succ n ih =>
      intro l hl hdvd b hb
      by_cases h : l = []
      · subst h; simp [toBlocks_nil] at hb
      · have hpos : 0 < l.length := List.length_pos.mpr h
        have h16 : 16 ≤ l.length := Nat.le_of_dvd hpos hdvd
        rw [toBlocks_ne_nil_eq l h] at hb
        simp only [List.mem_cons] at hb
        rcases hb with hb | hb
        · subst hb; simp [List.length_take]; omega
        · exact ih (l.drop 16) (by simp [List.length_drop]; omega)
            (by simp [List.length_drop]; exact (Nat.dvd_sub' hdvd (dvd_refl 16))) b hb
  exact H l.length l le_rfl hdvd

theorem toBlocks_length_dvd (l : List Nat) (hdvd : 16 ∣ l.length) :
    (toBlocks l).length = l.length / 16 := by
  have H : ∀ (n : Nat) (l : List Nat), l.length ≤ n → 16 ∣ l.length →
      (toBlocks l).length = l.length / 16 := by
    intro n
    induction n with
    | zero =>
      intro l hl _
      have : l = [] := by
        cases l with
        | nil => rfl
        | cons a t => simp at hl
      subst this
      simp [toBlocks_nil]
    | succ n ih =>
      intro l hl hdvd
      by_cases h : l = []
      · subst h; simp [toBlocks_nil]
      · have hpos : 0 < l.length := List.length_pos.mpr h
        have h16 : 16 ≤ l.length := Nat.le_of_dvd hpos hdvd
        rw [toBlocks_ne_nil_eq l h]
        simp only [List.length_cons]
        rw [ih (l.drop 16) (by simp [List.length_drop]; omega)
          (by simp [List.length_drop]; exact (Nat.dvd_sub' hdvd (dvd_refl 16)))]
        simp only [List.length_drop]
        omega
  exact H l.length l le_rfl hdvd

theorem toBlocks_of_blocks (bs : List (List Nat)) (hbs : ∀ b ∈ bs, b.length = 16) :
    toBlocks bs.flatten = bs := by
  induction bs with
  | nil => simp [toBlocks_nil]
  | cons b t ih =>
    have hb : b.length = 16 := hbs b (by simp)
    have hbne : b ≠ [] := by
      intro h
      rw [h] at hb
      simp at hb
    have hne : b ++ t.flatten ≠ [] := by
      simp only [ne_eq, List.append_eq_nil]
      intro h
      exact hbne h.1
    rw [List.flatten_cons, toBlocks_ne_nil_eq _ hne]
    rw [List.take_append_of_le_length (by omega), List.drop_append_of_le_length (by omega)]
    rw [List.take_of_length_le (by omega), List.drop_eq_nil_of_le (by omega)]
    simp only [List.nil_append]
    exact congrArg (b :: ·) (ih (fun x hx => hbs x (by simp [hx])))

theorem toBlocks_ne_nil (l : List Nat) (h : l ≠ []) : toBlocks l ≠ [] := by
  rw [toBlocks_ne_nil_eq l h]
  simp

theorem padLenOf_pos (n : Nat) : 1 ≤ padLenOf n := by
  have : n % 16 < 16 := Nat.mod_lt _ (by omega)
  simp only [padLenOf]
  omega

theorem padLenOf_le16 (n : Nat) : padLenOf n ≤ 16 := by
  simp only [padLenOf]
  omega

theorem padMsg_length (m : List Nat) :
    (padMsg m).length = m.length + padLenOf m.length := by
  simp [padMsg]

theorem padMsg_length_dvd (m : List Nat) : 16 ∣ (padMsg m).length := by
  rw [padMsg_length]
  have hmod := Nat.div_add_mod m.length 16
  have : m.length % 16 < 16 := Nat.mod_lt _ (by omega)
  refine ⟨m.length / 16 + 1, ?_⟩
  simp only [padLenOf]
  omega

theorem padMsg_ne_nil (m : List Nat) : padMsg m ≠ [] := by
  intro h
  have h2 := congrArg List.length h
  rw [padMsg_length] at h2
  have h3 := padLenOf_pos m.length
  simp only [List.length_nil] at h2
  omega

/-! ### Lemmas about the idealized tag -/

theorem gcmTag_length (key iv aad ct : List Nat) : (gcmTag key iv aad ct).length = 16 := rfl

theorem gcmTag_take16 (key iv aad ct : List Nat) :
    (gcmTag key iv aad ct).take 16 = gcmTag key iv aad ct := rfl

theorem sum_set_add (l : List Nat) (i b : Nat) (h : i < l.length) :
    (l.set i b).sum + l.get ⟨i, h⟩ = l.sum + b := by
  induction l generalizing i with
  | nil => simp at h
  | cons x xs ih =>
    cases i with
    | zero => simp [List.set, List.sum_cons]; omega
    | succ j =>
      simp only [List.set, List.sum_cons, List.get_cons_succ]
      have hj : j < xs.length := by simp at h; omega
      have := ih j hj
      omega

theorem byteSum_set_ne (l : List Nat) (i b : Nat) (h : i < l.length) (hb : b < 256)
    (hl : ∀ x ∈ l, x < 256) (hne : b ≠ l.get ⟨i, h⟩) :
    byteSum (l.set i b) ≠ byteSum l := by
  have hsum := sum_set_add l i b h
  have hli : l.get ⟨i, h⟩ < 256 := hl _ (l.get_mem i h)
  simp only [byteSum]
  intro hmod
  omega

theorem set_ne_self (l : List Nat) (i b : Nat) (h : i < l.length)
    (hne : b ≠ l.get ⟨i, h⟩) : l.set i b ≠ l := by
  induction l generalizing i with
  | nil => simp at h
  | cons x xs ih =>
    cases i with
    | zero =>
      intro heq
      simp only [List.set_cons_zero] at heq
      injection heq with h1 h2
      exact hne (by simp [h1])
    | succ j =>
      intro heq
      have hj : j < xs.length := by simp at h; omega
      simp only [List.set_cons_succ] at heq
      injection heq with h1 h2
      exact ih j hj (by simpa using hne) h2

theorem gcmTag_ne_aad (key iv aad ct : List Nat) (i b : Nat) (h : i < aad.length)
    (hb : b < 256) (hl : ∀ x ∈ aad, x < 256) (hne : b ≠ aad.get ⟨i, h⟩) :
    gcmTag key iv (aad.set i b) ct ≠ gcmTag key iv aad ct := by
  have := byteSum_set_ne aad i b h hb hl hne
  simp only [gcmTag, ne_eq, List.cons.injEq]
  intro hEq
  exact this hEq.1

theorem gcmTag_ne_ct (key iv aad ct : List Nat) (i b : Nat) (h : i < ct.length)
    (hb : b < 256) (hl : ∀ x ∈ ct, x < 256) (hne : b ≠ ct.get ⟨i, h⟩) :
    gcmTag key iv aad (ct.set i b) ≠ gcmTag key iv aad ct := by
  have := byteSum_set_ne ct i b h hb hl hne
  simp only [gcmTag, ne_eq, List.cons.injEq]
  intro hEq
  exact this hEq.2.1

/-- Well-formedness of the CBC buffering state: the pending partial input
block is shorter than a block, and a withheld decrypted block is a full
block withheld only at a block boundary (no pending input). -/
def EvpCtx.wfCbc (ctx : EvpCtx) : Prop :=
  ctx.pending.length < 16 ∧ (∀ b, ctx.held = some b → b.length = 16 ∧ ctx.pending = [])

/-- Well-formedness of a session: the back-referenced cipher matches the
context's configured algorithm, and for CBC the buffering state is
well-formed.  Established by `Cipher.op` and preserved by the session
operations. -/
def CipherOperation.wf (op : CipherOperation) : Prop :=
  ∃ c, op.cipher = some c ∧ op.ctx.alg = some c.alg ∧
    (c.alg.kind = ModeKind.cbc → EvpCtx.wfCbc op.ctx)

/-! ### The states produced by `Cipher.op` -/

/-- The EVP context right after a successful non-authenticated `begin`. -/
def nonGcmInitCtx (c : Cipher) (key iv : List Nat) (e : Nat) : EvpCtx :=
  { alg := some c.alg, enc := e, key := key, iv := iv, ivlenSet := c.alg.iv_len,
    chain := iv,
    calls := [PrimCall.ctxNew, PrimCall.ctxInit,
      PrimCall.cipherInit true (some key) (some iv) e] }

/-- The EVP context right after a successful authenticated (GCM) `begin`:
two-phase initialization with the nonce-length control call in between. -/
def gcmInitCtx (c : Cipher) (key iv : List Nat) (e : Nat) : EvpCtx :=
  { alg := some c.alg, enc := e, key := key, iv := iv, ivlenSet := iv.length,
    chain := iv,
    calls := [PrimCall.ctxNew, PrimCall.ctxInit,
      PrimCall.cipherInit true none none e,
      PrimCall.ctrl EVP_CTRL_GCM_SET_IVLEN iv.length,
      PrimCall.cipherInit false (some key) (some iv) e] }

theorem op_nonGcm (c : Cipher) (key iv : List Nat) (e : Nat)
    (hg : c.gcm = false) (hk : key.length = c.alg.key_len) (he : e = 0 ∨ e = 1)
    (hiv : iv.length = c.alg.iv_len) :
    c.op key iv e = Except.ok ⟨nonGcmInitCtx c key iv e, some c⟩ := by
  simp [Cipher.op, Cipher.opAux, Cipher.len_key, Cipher.len_IV, hk, hiv, hg, he,
    CipherOperation.new, evpCtxNewInit]
  rfl

theorem opAux_gcm (c : Cipher) (key iv : List Nat) (e : Nat)
    (hg : c.gcm = true) (ha : c.alg.aead = true) (hk : key.length = c.alg.key_len)
    (he : e = 0 ∨ e = 1) (hiv : iv.length ≠ 0) :
    c.opAux key iv e = (Except.ok ⟨gcmInitCtx c key iv e, some c⟩, gcmInitCtx c key iv e) := by
  simp only [Cipher.opAux, Cipher.len_key, Cipher.len_IV, hk, hg, he,
    CipherOperation.new, evpCtxNewInit, evpCipherInit, evpCipherInitApply, evpCtxCtrl,
    Option.isSome, EVP_CTRL_GCM_SET_IVLEN]
  simp [ha, hiv, gcmInitCtx, EVP_CTRL_GCM_SET_IVLEN]

theorem op_gcm (c : Cipher) (key iv : List Nat) (e : Nat)
    (hg : c.gcm = true) (ha : c.alg.aead = true) (hk : key.length = c.alg.key_len)
    (he : e = 0 ∨ e = 1) (hiv : iv.length ≠ 0) :
    c.op key iv e = Except.ok ⟨gcmInitCtx c key iv e, some c⟩ := by
  rw [Cipher.op, opAux_gcm c key iv e hg ha hk he hiv]

/-! ### Symbolic runs of the GCM sessions -/

theorem gcmSeal_eq (c : Cipher) (key iv aad msg : List Nat)
    (hg : c.gcm = true) (ha : c.alg.aead = true) (hkind : c.alg.kind = ModeKind.stream)
    (hk : key.length = c.alg.key_len) (hiv : iv.length ≠ 0) :
    gcmSeal c key iv aad msg =
      Except.ok (streamXor key iv 0 msg, gcmTag key iv aad (streamXor key iv 0 msg)) := by
  simp only [gcmSeal, Cipher.enc, op_gcm c key iv 1 hg ha hk (Or.inr rfl) hiv,
    CipherOperation.update_associated, CipherOperation.update_associatedAux,
    CipherOperation.update, CipherOperation.finalize, CipherOperation.get_tag,
    evpCipherUpdate, evpCipherFinal, evpCtxCtrl, evpCiphertextOf, gcmInitCtx,
    Cipher.len_block, EVP_CTRL_GCM_SET_IVLEN, EVP_CTRL_GCM_GET_TAG, EVP_CTRL_GCM_SET_TAG,
    Bind.bind, Except.bind, Pure.pure, Except.pure, ha, hkind]
  simp [ha, hkind, List.take_left, gcmTag_take16, gcmTag_length]

theorem quick_gcm_dec_ne (c : Cipher) (key iv ct tag aad : List Nat)
    (hg : c.gcm = true) (ha : c.alg.aead = true) (hkind : c.alg.kind = ModeKind.stream)
    (hk : key.length = c.alg.key_len) (hiv : iv.length ≠ 0)
    (htl : tag.length = 16) (hne : tag ≠ gcmTag key iv aad ct) :
    c.quick_gcm_dec key iv ct tag (some aad) = Except.error "Cipher exception" := by
  have ht : List.take 16 tag = tag := by
    rw [← htl]
    exact List.take_length tag
  by_cases haad : aad = []
  · subst haad
    simp only [Cipher.quick_gcm_dec, Cipher.dec, op_gcm c key iv 0 hg ha hk (Or.inl rfl) hiv,
      CipherOperation.update_associated, CipherOperation.update_associatedAux,
      CipherOperation.update, CipherOperation.finalize, CipherOperation.set_tag,
      evpCipherUpdate, evpCipherFinal, evpCtxCtrl, evpCiphertextOf, gcmInitCtx,
      Cipher.len_block, EVP_CTRL_GCM_SET_IVLEN, EVP_CTRL_GCM_GET_TAG, EVP_CTRL_GCM_SET_TAG,
      Bind.bind, Except.bind, Pure.pure, Except.pure, pyTruthy, ha, hkind, htl]
    simp [ha, hkind, htl, List.take_left, gcmTag_take16, gcmTag_length, ht, hne]
  · simp only [Cipher.quick_gcm_dec, Cipher.dec, op_gcm c key iv 0 hg ha hk (Or.inl rfl) hiv,
      CipherOperation.update_associated, CipherOperation.update_associatedAux,
      CipherOperation.update, CipherOperation.finalize, CipherOperation.set_tag,
      evpCipherUpdate, evpCipherFinal, evpCtxCtrl, evpCiphertextOf, gcmInitCtx,
      Cipher.len_block, EVP_CTRL_GCM_SET_IVLEN, EVP_CTRL_GCM_GET_TAG, EVP_CTRL_GCM_SET_TAG,
      Bind.bind, Except.bind, Pure.pure, Except.pure, pyTruthy, ha, hkind, htl]
    simp [ha, hkind, haad, htl, List.take_left, gcmTag_take16, gcmTag_length, ht, hne]

theorem quick_gcm_dec_ok (c : Cipher) (key iv ct tag aad : List Nat)
    (hg : c.gcm = true) (ha : c.alg.aead = true) (hkind : c.alg.kind = ModeKind.stream)
    (hk : key.length = c.alg.key_len) (hiv : iv.length ≠ 0) (haad : aad ≠ [])
    (htl : tag.length = 16) (heq : tag = gcmTag key iv aad ct) :
    c.quick_gcm_dec key iv ct tag (some aad) = Except.ok (streamXor key iv 0 ct) := by
  have ht : List.take 16 tag = tag := by
    rw [← htl]
    exact List.take_length tag
  simp only [Cipher.quick_gcm_dec, Cipher.dec, op_gcm c key iv 0 hg ha hk (Or.inl rfl) hiv,
    CipherOperation.update_associated, CipherOperation.update_associatedAux,
    CipherOperation.update, CipherOperation.finalize, CipherOperation.set_tag,
    evpCipherUpdate, evpCipherFinal, evpCtxCtrl, evpCiphertextOf, gcmInitCtx,
    Cipher.len_block, EVP_CTRL_GCM_SET_IVLEN, EVP_CTRL_GCM_GET_TAG, EVP_CTRL_GCM_SET_TAG,
    Bind.bind, Except.bind, Pure.pure, Except.pure, pyTruthy, ha, hkind, htl]
  simp [ha, hkind, haad, htl, List.take_left, gcmTag_take16, gcmTag_length, ht, heq]

/-! ### The CBC round trip -/

theorem flatten_length_of_16 (bs : List (List Nat)) (h : ∀ b ∈ bs, b.length = 16) :
    bs.flatten.length = 16 * bs.length := by
  induction bs with
  | nil => simp
  | cons b t ih =>
    simp only [List.flatten_cons, List.length_append, List.length_cons]
    rw [h b (by simp), ih (fun x hx => h x (by simp [hx]))]
    ring

/-- The single `update` followed by `finalize` of a CBC encrypt session
produces exactly the CBC encryption of the padded message. -/
theorem cbcEncRun_split (key iv m : List Nat) :
    (cbcEncBlocks key iv (toBlocks (List.take (m.length / 16 * 16) m))).flatten ++
      blockEnc key
        ((cbcEncBlocks key iv (toBlocks (List.take (m.length / 16 * 16) m))).getLastD iv)
        (List.drop (m.length / 16 * 16) m ++
          List.replicate (padLenOf m.length) (padLenOf m.length)) =
      (cbcEncBlocks key iv (toBlocks (padMsg m))).flatten := by
  have hmod : m.length % 16 < 16 := Nat.mod_lt _ (by omega)
  have hle : m.length / 16 * 16 ≤ m.length := Nat.div_mul_le_self _ _
  have h16 : (16 : Nat) ∣ m.length / 16 * 16 := Dvd.intro_left _ rfl
  have hdlen : (List.drop (m.length / 16 * 16) m).length = m.length % 16 := by
    simp only [List.length_drop]
    omega
  have hblklen : (List.drop (m.length / 16 * 16) m ++
      List.replicate (padLenOf m.length) (padLenOf m.length)).length = 16 := by
    simp only [List.length_append, List.length_replicate, hdlen, padLenOf]
    omega
  have hblkne : (List.drop (m.length / 16 * 16) m ++
      List.replicate (padLenOf m.length) (padLenOf m.length)) ≠ [] := by
    intro h
    rw [h] at hblklen
    simp at hblklen
  have hsplit : padMsg m = List.take (m.length / 16 * 16) m ++
      (List.drop (m.length / 16 * 16) m ++
        List.replicate (padLenOf m.length) (padLenOf m.length)) := by
    rw [← List.append_assoc, List.take_append_drop]
    rfl
  have h16t : (16 : Nat) ∣ (List.take (m.length / 16 * 16) m).length := by
    rw [List.length_take, Nat.min_eq_left hle]
    exact h16
  rw [hsplit, toBlocks_append16 _ _ h16t, cbcEncBlocks_append,
    toBlocks_small _ hblkne (by omega)]
  simp [cbcEncBlocks]

/-- The withheld final block of a CBC decrypt session carries the PKCS#7
padding: stripping it recovers the original message. -/
theorem padBlocks_last_unpad (m : List Nat) (h : toBlocks (padMsg m) ≠ []) :
    unpadCheck ((toBlocks (padMsg m)).getLast h) =
      some (((toBlocks (padMsg m)).getLast h).take (16 - padLenOf m.length)) ∧
    (toBlocks (padMsg m)).dropLast.flatten ++
      ((toBlocks (padMsg m)).getLast h).take (16 - padLenOf m.length) = m := by
  have hmod : m.length % 16 < 16 := Nat.mod_lt _ (by omega)
  have hp1 : 1 ≤ padLenOf m.length := padLenOf_pos _
  have hp16 : padLenOf m.length ≤ 16 := padLenOf_le16 _
  set PB := toBlocks (padMsg m) with hPB
  set lastB := PB.getLast h with hlastB
  set A := PB.dropLast.flatten with hA
  set p := padLenOf m.length with hp
  set R := List.replicate p p with hR
  have hRne : R ≠ [] := by
    rw [hR]
    simp only [ne_eq, List.replicate_eq_nil]
    omega
  have hlastne : lastB ≠ [] := by
    have h16 := toBlocks_mem_length (padMsg m) (padMsg_length_dvd m) lastB
      (by rw [hlastB]; exact PB.getLast_mem h)
    intro hnil
    rw [hnil] at h16
    simp at h16
  have hlast16 : lastB.length = 16 := by
    exact toBlocks_mem_length (padMsg m) (padMsg_length_dvd m) lastB
      (by rw [hlastB]; exact PB.getLast_mem h)
  have hApm : A ++ lastB = padMsg m := by
    have hd : PB.dropLast ++ [lastB] = PB := List.dropLast_append_getLast h
    have h2 := congrArg List.flatten hd
    simpa [hPB, toBlocks_flatten, hA] using h2
  have hpmR : padMsg m = m ++ R := rfl
  have hpmlen : (padMsg m).length = m.length + p := padMsg_length m
  have hAlen : A.length = m.length + p - 16 := by
    have := congrArg List.length hApm
    simp only [List.length_append, hlast16, hpmlen] at this
    omega
  have hge : 16 ≤ m.length + p := by
    rw [hp]
    simp only [padLenOf]
    omega
  have hAm : A.length + (16 - p) = m.length := by omega
  have hmtake : A ++ lastB.take (16 - p) = m := by
    have h1 : (A ++ lastB).take (A.length + (16 - p)) = A ++ lastB.take (16 - p) :=
      List.take_append _
    rw [hAm, hApm, hpmR, List.take_left] at h1
    exact h1.symm
  have hRlast : R.getLast? = some p := by
    rw [List.getLast?_eq_getLast R hRne]
    have hmem : R.getLast hRne ∈ R := List.getLast_mem hRne
    exact congrArg some (List.eq_of_mem_replicate hmem)
  have hlastp : lastB.getLast? = some p := by
    have h1 : (A ++ lastB).getLast? = lastB.getLast? := by
      rw [List.getLast?_append, List.getLast?_eq_getLast lastB hlastne]
      rfl
    rw [hApm, hpmR, List.getLast?_append, hRlast] at h1
    exact h1.symm
  have hdrop : lastB.drop (16 - p) = R := by
    have h3 : (A ++ lastB).drop (A.length + (16 - p)) = lastB.drop (16 - p) :=
      List.drop_append _
    rw [hAm, hApm, hpmR, List.drop_left] at h3
    exact h3.symm
  have hunpad : unpadCheck lastB = some (lastB.take (16 - p)) := by
    rw [unpadCheck]
    have hgd : lastB.getLastD 0 = p := by
      rw [List.getLastD_eq_getLast?, hlastp]
      rfl
    rw [hgd, if_pos]
    · rw [hlast16]
    · refine ⟨hp1, hp16, by omega, ?_⟩
      rw [hlast16, hdrop]
  exact ⟨hunpad, hmtake⟩

/-- Round trip of a stream-mode (CTR-like) session pair. -/
theorem encThenDec_stream (c : Cipher) (key iv m : List Nat)
    (hg : c.gcm = false) (haead : c.alg.aead = false) (hkind : c.alg.kind = ModeKind.stream)
    (hk : key.length = c.alg.key_len) (hiv : iv.length = c.alg.iv_len) :
    encThenDec c key iv m = Except.ok m := by
  simp only [encThenDec, Cipher.enc, Cipher.dec,
    op_nonGcm c key iv 1 hg hk (Or.inr rfl) hiv, op_nonGcm c key iv 0 hg hk (Or.inl rfl) hiv,
    CipherOperation.update, CipherOperation.finalize, evpCipherUpdate, evpCipherFinal,
    nonGcmInitCtx, Cipher.len_block, Bind.bind, Except.bind, Pure.pure, Except.pure,
    haead, hkind]
  simp [haead, hkind, List.take_left, streamXor_length, streamXor_streamXor]

/-- Round trip of a CBC session pair, including the padding of the final
block at `finalize` and the padding removal on decryption. -/
theorem encThenDec_cbc (c : Cipher) (key iv m : List Nat)
    (hg : c.gcm = false) (haead : c.alg.aead = false) (hkind : c.alg.kind = ModeKind.cbc)
    (hk : key.length = c.alg.key_len) (hiv : iv.length = c.alg.iv_len)
    (hiv16 : iv.length = 16) :
    encThenDec c key iv m = Except.ok m := by
  have hmod : m.length % 16 < 16 := Nat.mod_lt _ (by omega)
  have hle : m.length / 16 * 16 ≤ m.length := Nat.div_mul_le_self _ _
  have hpadeq : 16 - (List.drop (m.length / 16 * 16) m).length = padLenOf m.length := by
    simp only [List.length_drop, padLenOf]
    omega
  have hPB16 : ∀ b ∈ toBlocks (padMsg m), b.length = 16 :=
    toBlocks_mem_length _ (padMsg_length_dvd m)
  have hCT16 : ∀ b ∈ cbcEncBlocks key iv (toBlocks (padMsg m)), b.length = 16 :=
    cbcEncBlocks_mem_length key iv _ hiv16 hPB16
  have hCTlen : (cbcEncBlocks key iv (toBlocks (padMsg m))).flatten.length =
      16 * (cbcEncBlocks key iv (toBlocks (padMsg m))).length :=
    flatten_length_of_16 _ hCT16
  have hCTdvd : (16 : Nat) ∣ (cbcEncBlocks key iv (toBlocks (padMsg m))).flatten.length :=
    ⟨_, hCTlen⟩
  have hCTrem : (cbcEncBlocks key iv (toBlocks (padMsg m))).flatten.length % 16 = 0 := by
    omega
  have hCTdiv : (cbcEncBlocks key iv (toBlocks (padMsg m))).flatten.length / 16 * 16 =
      (cbcEncBlocks key iv (toBlocks (padMsg m))).flatten.length :=
    Nat.div_mul_cancel hCTdvd
  have hPBne : toBlocks (padMsg m) ≠ [] := toBlocks_ne_nil _ (padMsg_ne_nil m)
  have hCTblocks : toBlocks ((cbcEncBlocks key iv (toBlocks (padMsg m))).flatten) =
      cbcEncBlocks key iv (toBlocks (padMsg m)) := toBlocks_of_blocks _ hCT16
  have hplains : cbcDecBlocks key iv (cbcEncBlocks key iv (toBlocks (padMsg m))) =
      toBlocks (padMsg m) := cbcDec_cbcEnc key iv _ hiv16 hPB16
  have hlast := List.getLast?_eq_getLast _ hPBne
  have hunp := padBlocks_last_unpad m hPBne
  have hrep : List.replicate (16 - (List.drop (m.length / 16 * 16) m).length)
        (16 - (List.drop (m.length / 16 * 16) m).length) =
      List.replicate (padLenOf m.length) (padLenOf m.length) := by
    rw [hpadeq]
  simp only [encThenDec, Cipher.enc, Cipher.dec,
    op_nonGcm c key iv 1 hg hk (Or.inr rfl) hiv, op_nonGcm c key iv 0 hg hk (Or.inl rfl) hiv,
    CipherOperation.update, CipherOperation.finalize, evpCipherUpdate, evpCipherFinal,
    nonGcmInitCtx, Cipher.len_block, Bind.bind, Except.bind, Pure.pure, Except.pure,
    haead, hkind]
  simp only [haead, hkind, Bool.false_eq_true, if_false, if_true, and_true, true_and,
    and_self, eq_self_iff_true, List.nil_append, List.take_left, ne_eq, not_true,
    ite_true, ite_false]
  rw [hrep, cbcEncRun_split]
  simp only [haead, hkind, hCTrem, hCTdiv, List.take_length, hCTblocks, hplains, hlast,
    hunp.1, eq_self_iff_true, if_true, if_false, ite_true, ite_false, List.nil_append,
    List.take_left, Bool.false_eq_true, ne_eq, not_true, Nat.zero_ne_one,
    Nat.one_ne_zero]
  rw [hunp.2]

/-! ### The update output bound (spec section 4.4) -/

/-- Coherence of a descriptor's declared block size with its mode class
(true of every descriptor in the lookup table). -/
def EvpCipherAlg.sizesOk (a : EvpCipherAlg) : Prop :=
  (a.kind = ModeKind.stream → a.block_size = 1) ∧
  (a.kind = ModeKind.cbc → a.block_size = 16)

theorem dropLast_flatten_le16 (bs : List (List Nat)) (h : ∀ b ∈ bs, b.length ≤ 16) :
    bs.dropLast.flatten.length ≤ 16 * (bs.length - 1) := by
  induction bs with
  | nil => simp
  | cons b t ih =>
    cases t with
    | nil => simp
    | cons x xs =>
      have hb : b.length ≤ 16 := h b (by simp)
      have ht := ih (fun y hy => h y (by simp [List.mem_cons] at hy ⊢; tauto))
      simp only [List.dropLast_cons_of_ne_nil (List.cons_ne_nil x xs),
        List.flatten_cons, List.length_append, List.length_cons] at ht ⊢
      omega

/-- The number of bytes produced by one primitive `update` call never
exceeds `len(input) + block_size - 1`, for a well-formed context. -/
theorem evpUpdate_out_le (ctx : EvpCtx) (a : EvpCipherAlg) (data : List Nat)
    (ha : ctx.alg = some a) (hsz : a.sizesOk)
    (hwf : a.kind = ModeKind.cbc → EvpCtx.wfCbc ctx) :
    (evpCipherUpdate ctx false data).2.2.length ≤ data.length + a.block_size - 1 := by
  rcases hk : a.kind with _ | _
  · -- stream
    have hb1 : a.block_size = 1 := hsz.1 hk
    simp only [evpCipherUpdate, ha, hk]
    simp [streamXor_length, hb1]
  · -- cbc
    have hb16 : a.block_size = 16 := hsz.2 hk
    obtain ⟨hpend, hheld⟩ := hwf hk
    have hnle : (ctx.pending ++ data).length / 16 * 16 ≤ (ctx.pending ++ data).length :=
      Nat.div_mul_le_self _ _
    have hndvd : (16 : Nat) ∣ (ctx.pending ++ data).length / 16 * 16 :=
      Dvd.intro_left _ rfl
    have htlen : (List.take ((ctx.pending ++ data).length / 16 * 16)
        (ctx.pending ++ data)).length = (ctx.pending ++ data).length / 16 * 16 := by
      rw [List.length_take, Nat.min_eq_left hnle]
    have hbuflen : (ctx.pending ++ data).length = ctx.pending.length + data.length := by
      simp
    simp only [evpCipherUpdate, ha, hk]
    by_cases hf : ctx.finalled
    · simp [hf, hb16]
    · by_cases henc : ctx.enc = 1
      · -- CBC encryption path
        simp only [hf, henc, if_true, if_false, ite_true, ite_false, Bool.false_eq_true]
        have h1 := cbcEncBlocks_flatten_le ctx.key ctx.chain
          (toBlocks (List.take ((ctx.pending ++ data).length / 16 * 16) (ctx.pending ++ data)))
        rw [toBlocks_flatten, htlen] at h1
        simp only [hb16]
        omega
      · -- CBC decryption path
        rcases hh : ctx.held with _ | hblk
        · -- no withheld block
          have hplle := cbcDecBlocks_flatten_le ctx.key ctx.chain
            (toBlocks (List.take ((ctx.pending ++ data).length / 16 * 16)
              (ctx.pending ++ data)))
          rw [toBlocks_flatten, htlen] at hplle
          have hpl16 := cbcDecBlocks_mem_le16 ctx.key ctx.chain
            (toBlocks (List.take ((ctx.pending ++ data).length / 16 * 16)
              (ctx.pending ++ data)))
          have hdvd2 : (16 : Nat) ∣ (List.take ((ctx.pending ++ data).length / 16 * 16)
              (ctx.pending ++ data)).length := by
            rw [htlen]
            exact hndvd
          have hcount : (cbcDecBlocks ctx.key ctx.chain
              (toBlocks (List.take ((ctx.pending ++ data).length / 16 * 16)
                (ctx.pending ++ data)))).length = (ctx.pending ++ data).length / 16 := by
            rw [cbcDecBlocks_length, toBlocks_length_dvd _ hdvd2, htlen]
            omega
          by_cases hrem : (ctx.pending ++ data).length % 16 = 0
          · simp only [hf, henc, hh, hrem, if_true, if_false, ite_true, ite_false,
              Bool.false_eq_true, eq_self_iff_true, List.nil_append]
            have hle2 := dropLast_flatten_le16 _ hpl16
            rw [hcount] at hle2
            simp only [hb16]
            omega
          · simp only [hf, henc, hh, hrem, if_true, if_false, ite_true, ite_false,
              Bool.false_eq_true, eq_self_iff_true, List.nil_append]
            simp only [hb16]
            omega
        · -- a withheld block: the pending buffer is empty
          obtain ⟨hblk16, hpnil⟩ := hheld hblk hh
          rw [hpnil]
          simp only [List.nil_append]
          have hnle2 : data.length / 16 * 16 ≤ data.length := Nat.div_mul_le_self _ _
          have hndvd2 : (16 : Nat) ∣ data.length / 16 * 16 := Dvd.intro_left _ rfl
          have htlen2 : (List.take (data.length / 16 * 16) data).length =
              data.length / 16 * 16 := by
            rw [List.length_take, Nat.min_eq_left hnle2]
          have hplle := cbcDecBlocks_flatten_le ctx.key ctx.chain
            (toBlocks (List.take (data.length / 16 * 16) data))
          rw [toBlocks_flatten, htlen2] at hplle
          have hpl16 := cbcDecBlocks_mem_le16 ctx.key ctx.chain
            (toBlocks (List.take (data.length / 16 * 16) data))
          have hdvd2 : (16 : Nat) ∣ (List.take (data.length / 16 * 16) data).length := by
            rw [htlen2]
            exact hndvd2
          have hcount : (cbcDecBlocks ctx.key ctx.chain
              (toBlocks (List.take (data.length / 16 * 16) data))).length =
              data.length / 16 := by
            rw [cbcDecBlocks_length, toBlocks_length_dvd _ hdvd2, htlen2]
            omega
          by_cases hrem : data.length % 16 = 0
          · simp only [hf, henc, hrem, if_true, if_false, ite_true, ite_false,
              Bool.false_eq_true, eq_self_iff_true, List.singleton_append]
            have hall : ∀ b ∈ hblk :: cbcDecBlocks ctx.key ctx.chain
                (toBlocks (List.take (data.length / 16 * 16) data)), b.length ≤ 16 := by
              intro b hb
              rcases List.mem_cons.mp hb with hb | hb
              · subst hb; omega
              · exact hpl16 b hb
            have hle2 := dropLast_flatten_le16 _ hall
            simp only [List.length_cons, hcount] at hle2
            simp only [hb16]
            omega
          · simp only [hf, henc, hrem, if_true, if_false, ite_true, ite_false,
              Bool.false_eq_true, eq_self_iff_true, List.singleton_append]
            simp only [hb16, List.flatten_cons, List.length_append, hblk16]
            omega

/-! ### Concrete values (the test suite's vectors) and reachable sessions -/

/-- The byte string `"A"*16`. -/
def keyA : List Nat := List.replicate 16 65

/-- The byte string `"A"*16` as an IV. -/
def ivA16 : List Nat := List.replicate 16 65

/-- The byte string `"A"*12` (a GCM nonce). -/
def ivA12 : List Nat := List.replicate 12 65

/-- The byte string `"World!"`. -/
def msgWorld : List Nat := [87, 111, 114, 108, 100, 33]

/-- The byte string `"Hello"`. -/
def assocHello : List Nat := [72, 101, 108, 108, 111]

/-- The cipher resolved from `"AES-128-CBC"`. -/
def cipherCbc : Cipher := ⟨algAes128Cbc, false⟩

/-- The cipher resolved from `"AES-128-CTR"`. -/
def cipherCtr : Cipher := ⟨algAes128Ctr, false⟩

/-- A GCM encrypt session after one payload `update` (reached through the
public API). -/
def gcmSessionAfterPayload : CipherOperation :=
  match Cipher.aes_128_gcm.op keyA ivA12 1 with
  | Except.ok e =>
    match e.update msgWorld with
    | Except.ok r => r.2
    | Except.error _ => CipherOperation.new
  | Except.error _ => CipherOperation.new

/-- A CTR session after `update([1,2,3])` and a successful `finalize`
(reached through the public API). -/
def ctrSessionFinalized : CipherOperation :=
  match cipherCtr.op keyA ivA16 1 with
  | Except.ok e =>
    match e.update [1, 2, 3] with
    | Except.ok r =>
      match r.2.finalize with
      | Except.ok r2 => r2.2
      | Except.error _ => CipherOperation.new
    | Except.error _ => CipherOperation.new
  | Except.error _ => CipherOperation.new

/-- A fresh CBC encrypt session (reached through the public API). -/
def cbcFreshSession : CipherOperation :=
  match cipherCbc.op keyA ivA16 1 with
  | Except.ok e => e
  | Except.error _ => CipherOperation.new

/-- Whether a primitive call is a cipher-initialization or control call. -/
def isInitOrCtrl : PrimCall → Bool
  | PrimCall.cipherInit _ _ _ _ => true
  | PrimCall.ctrl _ _ => true
  | _ => false

/-! ### The claims -/

/-- C1: the one-shot authenticated-encrypt convenience operation, called
with a non-None (and non-empty) associated-data argument, does NOT absorb
the associated data into the encrypt session: the source line reads
`dec.update_associated(assoc)` where `dec` is an undefined name, so the
call raises a `NameError` instead of returning the `(ciphertext, tag)`
pair that the composition `begin/absorb/update/finalize/get_tag`
(`gcmSeal`) produces on the same inputs.  This evaluates the code at the
failing input and shows the intended composition succeeding. -/
theorem C1_quick_gcm_enc_references_undefined_dec :
    Cipher.quick_gcm_enc Cipher.aes_128_gcm keyA ivA12 msgWorld (some assocHello) 16 =
      Except.error "NameError: global name dec is not defined" ∧
    gcmSeal Cipher.aes_128_gcm keyA ivA12 assocHello msgWorld =
      Except.ok (streamXor keyA ivA12 0 msgWorld,
        gcmTag keyA ivA12 assocHello (streamXor keyA ivA12 0 msgWorld)) := by
  exact ⟨rfl, rfl⟩

/-- C2: for every authenticated (GCM) session pair, changing a single byte
of the associated data, of the ciphertext, or of the tag between sealing
and opening makes the decrypt-side `finalize` raise (the one-shot
`quick_gcm_dec` propagates the exception instead of returning the
plaintext).  The failure is the fail-closed `TagMismatch` of the spec,
which the code raises as `Exception("Cipher exception")`. -/
theorem C2_single_byte_change_fails_closed (c : Cipher) (key iv aad msg ct tag : List Nat)
    (hg : c.gcm = true) (ha : c.alg.aead = true) (hkind : c.alg.kind = ModeKind.stream)
    (hk : key.length = c.alg.key_len) (hiv : iv.length ≠ 0)
    (haadB : ∀ x ∈ aad, x < 256) (hmsgB : ∀ x ∈ msg, x < 256)
    (hseal : gcmSeal c key iv aad msg = Except.ok (ct, tag)) :
    (∀ (i b : Nat) (hi : i < aad.length), b < 256 → b ≠ aad.get ⟨i, hi⟩ →
      c.quick_gcm_dec key iv ct tag (some (aad.set i b)) =
        Except.error "Cipher exception") ∧
    (∀ (i b : Nat) (hi : i < ct.length), b < 256 → b ≠ ct.get ⟨i, hi⟩ →
      c.quick_gcm_dec key iv (ct.set i b) tag (some aad) =
        Except.error "Cipher exception") ∧
    (∀ (i b : Nat) (hi : i < tag.length), b ≠ tag.get ⟨i, hi⟩ →
      c.quick_gcm_dec key iv ct (tag.set i b) (some aad) =
        Except.error "Cipher exception") := by
  rw [gcmSeal_eq c key iv aad msg hg ha hkind hk hiv] at hseal
  obtain ⟨hct, htag⟩ := Prod.ext_iff.mp ((Except.ok.injEq _ _).mp hseal)
  subst hct
  subst htag
  have hctB : ∀ x ∈ streamXor key iv 0 msg, x < 256 := streamXor_mem_lt _ _ _ _ hmsgB
  refine ⟨?_, ?_, ?_⟩
  · intro i b hi hb hne
    refine quick_gcm_dec_ne c key iv _ _ _ hg ha hkind hk hiv (gcmTag_length _ _ _ _) ?_
    exact (gcmTag_ne_aad key iv aad _ i b hi hb haadB hne).symm
  · intro i b hi hb hne
    refine quick_gcm_dec_ne c key iv _ _ _ hg ha hkind hk hiv (gcmTag_length _ _ _ _) ?_
    exact (gcmTag_ne_ct key iv aad _ i b hi hb hctB hne).symm
  · intro i b hi hne
    refine quick_gcm_dec_ne c key iv _ _ _ hg ha hkind hk hiv ?_ ?_
    · rw [List.length_set]
      exact gcmTag_length _ _ _ _
    · exact set_ne_self _ i b hi hne

/-- Witness for C2 at the test suite's vector, flipping the first
associated-data byte. -/
theorem C2_witness :
    gcmSeal Cipher.aes_128_gcm keyA ivA12 assocHello msgWorld =
      Except.ok (streamXor keyA ivA12 0 msgWorld,
        gcmTag keyA ivA12 assocHello (streamXor keyA ivA12 0 msgWorld)) ∧
    Cipher.aes_128_gcm.quick_gcm_dec keyA ivA12 (streamXor keyA ivA12 0 msgWorld)
      (gcmTag keyA ivA12 assocHello (streamXor keyA ivA12 0 msgWorld))
      (some (assocHello.set 0 0)) = Except.error "Cipher exception" := by
  refine ⟨rfl, ?_⟩
  exact (C2_single_byte_change_fails_closed Cipher.aes_128_gcm keyA ivA12 assocHello
    msgWorld (streamXor keyA ivA12 0 msgWorld)
    (gcmTag keyA ivA12 assocHello (streamXor keyA ivA12 0 msgWorld))
    rfl rfl rfl rfl (by decide) (by decide) (by decide) rfl).1 0 0 (by decide)
    (by decide) (by decide)

/-- C3 (counterexample): for the supported authenticated mode aes-128-gcm,
running a decrypt session (update then finalize) over the output of an
encrypt session (update then finalize) raises instead of returning the
message, already for the empty message: GCM decrypt `finalize` fails when
no tag has been installed.  So the round trip as claimed does not hold for
every supported cipher and mode. -/
theorem C3_counterexample :
    encThenDec Cipher.aes_128_gcm keyA ivA12 [] = Except.error "Cipher exception" ∧
    (Except.error "Cipher exception" : Except String (List Nat)) ≠ Except.ok [] := by
  exact ⟨rfl, fun h => Except.noConfusion h⟩

/-- C3 (amended): for every supported NON-AUTHENTICATED cipher and mode,
every key and IV of the declared lengths and every byte sequence `m`
(including the empty one), a decrypt session (update then finalize,
outputs concatenated) over the output of an encrypt session (update then
finalize, concatenated) with the same key and iv returns exactly `m`. -/
theorem C3_roundtrip_nonauthenticated (name : String) (c : Cipher)
    (hres : mkCipher name = Except.ok c) (haead : c.alg.aead = false)
    (key iv m : List Nat) (hk : key.length = c.alg.key_len)
    (hiv : iv.length = c.alg.iv_len) :
    encThenDec c key iv m = Except.ok m := by
  rcases hlook : evpGetCipherByName name with _ | alg
  · simp only [mkCipher, hlook] at hres
    exact Except.noConfusion hres
  · simp only [mkCipher, hlook] at hres
    by_cases hccm : strContains (lowerString name) "ccm" = true
    · rw [if_pos hccm] at hres
      exact Except.noConfusion hres
    · rw [if_neg hccm] at hres
      have hc : c = ⟨alg, strContains (lowerString name) "gcm"⟩ := by
        injection hres with h
        exact h.symm
      subst hc
      simp only [evpGetCipherByName] at hlook
      by_cases h1 : lowerString name = "aes-128-cbc"
      · rw [if_pos h1] at hlook
        injection hlook with h2
        subst h2
        have hgf : strContains (lowerString name) "gcm" = false := by
          rw [h1]
          decide
        exact encThenDec_cbc _ key iv m hgf haead rfl hk hiv hiv
      · rw [if_neg h1] at hlook
        by_cases h2 : lowerString name = "aes-128-ctr"
        · rw [if_pos h2] at hlook
          injection hlook with h3
          subst h3
          have hgf : strContains (lowerString name) "gcm" = false := by
            rw [h2]
            decide
          exact encThenDec_stream _ key iv m hgf haead rfl hk hiv
        · rw [if_neg h2] at hlook
          by_cases h3 : lowerString name = "aes-128-gcm"
          · rw [if_pos h3] at hlook
            injection hlook with h4
            subst h4
            simp [algAes128Gcm] at haead
          · rw [if_neg h3] at hlook
            by_cases h4 : lowerString name = "aes-192-gcm"
            · rw [if_pos h4] at hlook
              injection hlook with h5
              subst h5
              simp [algAes192Gcm] at haead
            · rw [if_neg h4] at hlook
              by_cases h5 : lowerString name = "aes-256-gcm"
              · rw [if_pos h5] at hlook
                injection hlook with h6
                subst h6
                simp [algAes256Gcm] at haead
              · rw [if_neg h5] at hlook
                by_cases h6 : lowerString name = "aes-128-ccm"
                · rw [if_pos h6] at hlook
                  injection hlook with h7
                  subst h7
                  simp [algAes128Ccm] at haead
                · rw [if_neg h6] at hlook
                  cases hlook

/-- Witness for the amended C3 at `"AES-128-CBC"` with a 20-byte message
(one full block plus a partial block). -/
theorem C3_witness :
    encThenDec cipherCbc keyA ivA16 (List.range 20) = Except.ok (List.range 20) :=
  C3_roundtrip_nonauthenticated "AES-128-CBC" cipherCbc (by rfl) rfl
    keyA ivA16 (List.range 20) rfl rfl

/-- C4 (counterexample): the three precondition violations of `begin` — a
wrong-length key, an invalid direction, and (non-authenticated) a
wrong-length IV — all raise literally the same exception,
`Exception("Cipher exception")`; they are not the distinct failures
`InvalidKeyLength` / `InvalidDirection` / `InvalidIVLength` the claim
states. -/
theorem C4_counterexample :
    Cipher.op cipherCbc [] ivA16 1 = Except.error "Cipher exception" ∧
    Cipher.op cipherCbc keyA ivA16 7 = Except.error "Cipher exception" ∧
    Cipher.op cipherCbc keyA [1, 2] 1 = Except.error "Cipher exception" :=
  ⟨rfl, rfl, rfl⟩

/-- C4 (amended): `begin` checks the key length first, then the direction,
then (non-authenticated modes only) the IV length; each violation raises
the same generic `Exception("Cipher exception")`, and the failure happens
after the context allocation but before any cipher-initialization or
control primitive call (the context's call trace holds only the
allocation calls). -/
theorem C4_precondition_checks :
    ∀ (c : Cipher) (key iv : List Nat) (e : Nat),
      (key.length ≠ c.alg.key_len →
        c.opAux key iv e = (Except.error "Cipher exception", evpCtxNewInit)) ∧
      (key.length = c.alg.key_len → e ≠ 0 → e ≠ 1 →
        c.opAux key iv e = (Except.error "Cipher exception", evpCtxNewInit)) ∧
      (c.gcm = false → key.length = c.alg.key_len → (e = 0 ∨ e = 1) →
        iv.length ≠ c.alg.iv_len →
        c.opAux key iv e = (Except.error "Cipher exception", evpCtxNewInit)) ∧
      (∀ call ∈ evpCtxNewInit.calls, isInitOrCtrl call = false) := by
  intro c key iv e
  refine ⟨?_, ?_, ?_, ?_⟩
  · intro h
    simp [Cipher.opAux, Cipher.len_key, h, CipherOperation.new]
  · intro hk h0 h1
    simp [Cipher.opAux, Cipher.len_key, hk, h0, h1, CipherOperation.new]
  · intro hg hk he hiv
    simp [Cipher.opAux, Cipher.len_key, Cipher.len_IV, hg, hk, he, hiv,
      CipherOperation.new]
  · decide

/-- Witness for the amended C4: the three failure shapes at concrete
inputs. -/
theorem C4_witness :
    Cipher.opAux cipherCtr [1] ivA16 1 = (Except.error "Cipher exception", evpCtxNewInit) ∧
    Cipher.opAux cipherCtr keyA ivA16 5 = (Except.error "Cipher exception", evpCtxNewInit) ∧
    Cipher.opAux cipherCtr keyA [] 1 = (Except.error "Cipher exception", evpCtxNewInit) :=
  ⟨(C4_precondition_checks cipherCtr [1] ivA16 1).1 (by decide),
   (C4_precondition_checks cipherCtr keyA ivA16 5).2.1 (by decide) (by decide) (by decide),
   (C4_precondition_checks cipherCtr keyA [] 1).2.2.1 rfl (by decide) (Or.inr rfl)
     (by decide)⟩

/-- C5 (counterexample): absorbing associated data after a payload
`update` on an authenticated session is NOT rejected by a wrapper-level
`InvalidSessionState` check before being attempted: the primitive call IS
made (it appears in the context's call trace) and the failure raised is
the generic `Exception("Cipher exception")` coming from the primitive's
return code. -/
theorem C5_counterexample :
    (gcmSessionAfterPayload.update_associatedAux assocHello).1 =
      Except.error "Cipher exception" ∧
    PrimCall.cupdate true 5 ∈
      (gcmSessionAfterPayload.update_associatedAux assocHello).2.calls := by
  exact ⟨rfl, by decide⟩

/-- C5 (amended): `update_associated` performs no session-state check of
its own: the null-output primitive update call is always attempted (it is
appended to the call trace), and on a non-authenticated session, or on an
authenticated session after payload processing has begun, the primitive
rejects it and the wrapper raises the generic
`Exception("Cipher exception")`. -/
theorem C5_absorb_attempted_generic_failure :
    ∀ (op : CipherOperation) (a : EvpCipherAlg) (data : List Nat),
      op.ctx.alg = some a →
      ((a.aead = true → op.ctx.dataIn ≠ [] →
        (op.update_associatedAux data).1 = Except.error "Cipher exception" ∧
        (op.update_associatedAux data).2.calls =
          op.ctx.calls ++ [PrimCall.cupdate true data.length]) ∧
      (a.aead = false →
        (op.update_associatedAux data).1 = Except.error "Cipher exception" ∧
        (op.update_associatedAux data).2.calls =
          op.ctx.calls ++ [PrimCall.cupdate true data.length])) := by
  intro op a data ha
  constructor
  · intro haead hdata
    constructor <;>
      simp [CipherOperation.update_associatedAux, evpCipherUpdate, ha, haead, hdata]
  · intro haead
    constructor <;>
      simp [CipherOperation.update_associatedAux, evpCipherUpdate, ha, haead]

/-- Witness for the amended C5: the after-payload GCM session and a fresh
CBC session. -/
theorem C5_witness :
    (gcmSessionAfterPayload.update_associatedAux [9]).1 =
      Except.error "Cipher exception" ∧
    (cbcFreshSession.update_associatedAux [9]).1 = Except.error "Cipher exception" :=
  ⟨((C5_absorb_attempted_generic_failure gcmSessionAfterPayload algAes128Gcm [9]
       rfl).1 rfl (by decide)).1,
   ((C5_absorb_attempted_generic_failure cbcFreshSession algAes128Cbc [9]
       rfl).2 rfl).1⟩

/-- C6 (counterexample): a stream (CTR) session is NOT terminal after
`finalize`: a further `update` call succeeds and returns more data; and
`finalize` does not release the context resource — after a completed
`finalize` the context is unfreed and the trace holds no cleanup/free
call. -/
theorem C6_counterexample :
    (ctrSessionFinalized.update [4, 5]).isOk = true ∧
    ctrSessionFinalized.ctx.freed = false ∧
    PrimCall.cfinal ∈ ctrSessionFinalized.ctx.calls ∧
    PrimCall.cleanup ∉ ctrSessionFinalized.ctx.calls ∧
    PrimCall.free ∉ ctrSessionFinalized.ctx.calls := by
  exact ⟨rfl, rfl, by decide, by decide, by decide⟩

/-- C6 (amended): `finalize` never releases the context — on success and
on failure alike it leaves the resource unfreed and appends only the
final-call to the trace; the release happens only in the destructor
`__del__`, which performs exactly one cleanup and one free; and the
session is not terminal: on a non-authenticated stream session an
`update` after `finalize` succeeds and returns the keystream XOR of its
input. -/
theorem C6_finalize_not_terminal_release_only_in_del :
    (∀ ctx : EvpCtx, (evpCipherFinal ctx).2.1.freed = ctx.freed ∧
      (evpCipherFinal ctx).2.1.calls = ctx.calls ++ [PrimCall.cfinal]) ∧
    (∀ op : CipherOperation,
      op.del = Except.ok { op with ctx := evpCtxFree (evpCtxCleanup op.ctx).2 } ∧
      (evpCtxFree (evpCtxCleanup op.ctx).2).freed = true ∧
      (evpCtxFree (evpCtxCleanup op.ctx).2).calls =
        op.ctx.calls ++ [PrimCall.cleanup, PrimCall.free]) ∧
    (∀ (ctx : EvpCtx) (a : EvpCipherAlg) (data : List Nat), ctx.alg = some a →
      a.aead = false → a.kind = ModeKind.stream →
      (evpCipherUpdate (evpCipherFinal ctx).2.1 false data).1 = 1 ∧
      (evpCipherUpdate (evpCipherFinal ctx).2.1 false data).2.2 =
        streamXor ctx.key ctx.iv ctx.dataIn.length data) := by
  refine ⟨?_, ?_, ?_⟩
  · intro ctx
    constructor
    · simp only [evpCipherFinal]
      repeat' split
      all_goals simp
    · simp only [evpCipherFinal]
      repeat' split
      all_goals simp
  · intro op
    refine ⟨rfl, rfl, ?_⟩
    simp [evpCtxCleanup, evpCtxFree]
  · intro ctx a data ha haead hkind
    constructor <;> simp [evpCipherFinal, evpCipherUpdate, ha, haead, hkind]

/-- Witness for the amended C6: a fresh CTR session, finalized and then
updated. -/
theorem C6_witness :
    (evpCipherUpdate (evpCipherFinal (nonGcmInitCtx cipherCtr keyA ivA16 1)).2.1
      false [4, 5]).1 = 1 :=
  ((C6_finalize_not_terminal_release_only_in_del).2.2
    (nonGcmInitCtx cipherCtr keyA ivA16 1) algAes128Ctr [4, 5] rfl rfl rfl).1

/-- C7: for every authenticated `begin` with a correct-length key, a valid
direction, and a (nonempty) IV, the performed primitive calls are exactly:
context allocation, then a cipher-init binding the algorithm with null key
and iv (fixing the direction), then the control call setting the accepted
nonce length to `len(iv)` (no length restriction enforced by the wrapper),
then a cipher-init supplying the actual key and iv — and the call
succeeds. -/
theorem C7_gcm_two_phase_initialization :
    ∀ (c : Cipher) (key iv : List Nat) (e : Nat),
      c.gcm = true → c.alg.aead = true → key.length = c.alg.key_len →
      (e = 0 ∨ e = 1) → iv ≠ [] →
      (c.opAux key iv e).2.calls =
        [PrimCall.ctxNew, PrimCall.ctxInit,
          PrimCall.cipherInit true none none e,
          PrimCall.ctrl EVP_CTRL_GCM_SET_IVLEN iv.length,
          PrimCall.cipherInit false (some key) (some iv) e] ∧
      (c.opAux key iv e).2.ivlenSet = iv.length ∧
      (c.opAux key iv e).1 = Except.ok ⟨(c.opAux key iv e).2, some c⟩ := by
  intro c key iv e hg ha hk he hivne
  have hiv : iv.length ≠ 0 := by
    intro h
    exact hivne (List.length_eq_zero.mp h)
  rw [opAux_gcm c key iv e hg ha hk he hiv]
  exact ⟨rfl, rfl, rfl⟩

/-- Witness for C7 at the 128-bit GCM cipher with a 12-byte nonce. -/
theorem C7_witness :
    (Cipher.aes_128_gcm.opAux keyA ivA12 1).2.calls =
      [PrimCall.ctxNew, PrimCall.ctxInit, PrimCall.cipherInit true none none 1,
        PrimCall.ctrl EVP_CTRL_GCM_SET_IVLEN ivA12.length,
        PrimCall.cipherInit false (some keyA) (some ivA12) 1] :=
  (C7_gcm_two_phase_initialization Cipher.aes_128_gcm keyA ivA12 1 rfl rfl rfl
    (Or.inr rfl) (by decide)).1

/-- The CBC session after feeding three bytes (all buffered, no output). -/
def cbcSessionAfterShortUpdate : CipherOperation :=
  match cbcFreshSession.update [1, 2, 3] with
  | Except.ok r => r.2
  | Except.error _ => CipherOperation.new

/-- C8: for every `update` call on a well-formed session, the output
buffer handed to the primitive has size `len(input) + block_size - 1`, the
returned bytes are exactly the first `outl` bytes of that buffer where
`outl` is the produced length reported by the primitive (never assumed to
equal the input length), and hence the returned sequence never exceeds
`len(input) + block_size - 1` bytes. -/
theorem C8_update_output_bound :
    ∀ (op : CipherOperation) (c : Cipher) (data out : List Nat) (op' : CipherOperation),
      op.cipher = some c → op.ctx.alg = some c.alg → c.alg.sizesOk →
      (c.alg.kind = ModeKind.cbc → EvpCtx.wfCbc op.ctx) →
      op.update data = Except.ok (out, op') →
      out = ((evpCipherUpdate op.ctx false data).2.2 ++
          List.replicate (data.length + c.len_block - 1 -
            (evpCipherUpdate op.ctx false data).2.2.length) 0).take
        (evpCipherUpdate op.ctx false data).2.2.length ∧
      ((evpCipherUpdate op.ctx false data).2.2 ++
          List.replicate (data.length + c.len_block - 1 -
            (evpCipherUpdate op.ctx false data).2.2.length) 0).length =
        data.length + c.len_block - 1 ∧
      out.length ≤ data.length + c.len_block - 1 := by
  intro op c data out op' hc ha hsz hwf hupd
  have hble : (evpCipherUpdate op.ctx false data).2.2.length ≤
      data.length + c.alg.block_size - 1 := evpUpdate_out_le op.ctx c.alg data ha hsz hwf
  obtain ⟨ctx, cipherF⟩ := op
  simp only at hc ha hble hupd
  subst hc
  simp only [CipherOperation.update] at hupd
  by_cases hr : (evpCipherUpdate ctx false data).1 = 1
  · rw [if_pos hr] at hupd
    injection hupd with h2
    injection h2 with ho ho2
    refine ⟨ho.symm, ?_, ?_⟩
    · rw [List.length_append, List.length_replicate]
      simp only [Cipher.len_block]
      omega
    · rw [← ho, List.take_left]
      simpa [Cipher.len_block] using hble
  · rw [if_neg hr] at hupd
    exact Except.noConfusion hupd

/-- Witness for C8: a fresh CBC session fed three bytes buffers everything
(`outl = 0`) while the claim's bound holds. -/
theorem C8_witness :
    cbcFreshSession.update [1, 2, 3] = Except.ok ([], cbcSessionAfterShortUpdate) ∧
    ([] : List Nat).length ≤ ([1, 2, 3] : List Nat).length + cipherCbc.len_block - 1 := by
  refine ⟨by rfl, ?_⟩
  exact (C8_update_output_bound cbcFreshSession cipherCbc [1, 2, 3] []
    cbcSessionAfterShortUpdate (by rfl) (by rfl)
    ⟨fun h => ModeKind.noConfusion h, fun _ => rfl⟩
    (fun _ => ⟨by decide, fun b hb => by exact Option.noConfusion hb⟩) (by rfl)).2.2

/-- C9 (counterexample): the unknown name `"FAKE-CCM"` requests the CCM
mode (case-insensitively), yet resolution fails with the UnknownCipher
exception, not with the UnsupportedMode (`CCM mode not supported`) one:
the name-lookup failure is checked first. -/
theorem C9_counterexample :
    mkCipher "FAKE-CCM" = Except.error "Unknown cipher: FAKE-CCM" ∧
    strContains (lowerString "FAKE-CCM") "ccm" = true ∧
    ("Unknown cipher: FAKE-CCM" : String) ≠ "CCM mode not supported" := by
  exact ⟨rfl, rfl, by decide⟩

/-- C9 (amended): resolving a name unknown to the primitive library fails
with `Exception("Unknown cipher: <name>")`; resolving a name the library
recognizes that requests CCM (matched case-insensitively) fails with
`Exception("CCM mode not supported")` rather than producing a
descriptor. -/
theorem C9_resolution_failures :
    (∀ name : String, evpGetCipherByName name = none →
      mkCipher name = Except.error ("Unknown cipher: " ++ name)) ∧
    (∀ (name : String) (a : EvpCipherAlg), evpGetCipherByName name = some a →
      strContains (lowerString name) "ccm" = true →
      mkCipher name = Except.error "CCM mode not supported") := by
  constructor
  · intro name h
    simp [mkCipher, h]
  · intro name a h hc
    simp [mkCipher, h, hc]

/-- Witness for the amended C9: the test suite's unknown name and the
recognized CCM name. -/
theorem C9_witness :
    mkCipher "AES-128-XXF" = Except.error ("Unknown cipher: " ++ "AES-128-XXF") ∧
    mkCipher "aes-128-ccm" = Except.error "CCM mode not supported" :=
  ⟨(C9_resolution_failures).1 "AES-128-XXF" rfl,
   (C9_resolution_failures).2 "aes-128-ccm" algAes128Ccm rfl rfl⟩

/-- C10: every failure detected through the `_check` return-code helper —
wrong key length, invalid direction, wrong IV length, a primitive failure
during init, absorb, update, finalize, tag get/set, or a tag mismatch —
raises the identical `Exception("Cipher exception")`, so these causes are
indistinguishable from the exception alone; only the two resolution
failures carry distinct messages, different from `"Cipher exception"`. -/
theorem C10_uniform_exception_messages :
    (∀ (c : Cipher) (key iv : List Nat) (e : Nat) (s : String),
      Cipher.op c key iv e = Except.error s → s = "Cipher exception") ∧
    (∀ (op : CipherOperation) (data : List Nat) (s : String),
      op.update_associated data = Except.error s → s = "Cipher exception") ∧
    (∀ (op : CipherOperation) (c : Cipher) (data : List Nat) (s : String),
      op.cipher = some c → op.update data = Except.error s → s = "Cipher exception") ∧
    (∀ (op : CipherOperation) (c : Cipher) (s : String),
      op.cipher = some c → op.finalize = Except.error s → s = "Cipher exception") ∧
    (∀ (op : CipherOperation) (tl : Nat) (s : String),
      op.get_tag tl = Except.error s → s = "Cipher exception") ∧
    (∀ (op : CipherOperation) (t : List Nat) (s : String),
      op.set_tag t = Except.error s → s = "Cipher exception") ∧
    (∀ (op : CipherOperation) (s : String),
      op.del = Except.error s → s = "Cipher exception") ∧
    (∀ (name s : String), mkCipher name = Except.error s →
      s = "Unknown cipher: " ++ name ∨ s = "CCM mode not supported") ∧
    (∀ name : String, ("Unknown cipher: " ++ name : String) ≠ "Cipher exception") ∧
    ("CCM mode not supported" : String) ≠ "Cipher exception" := by
  refine ⟨?_, ?_, ?_, ?_, ?_, ?_, ?_, ?_, ?_, by decide⟩
  · intro c key iv e s h
    simp only [Cipher.op, Cipher.opAux] at h
    repeat' split at h
    all_goals simp at h
    all_goals first
      | exact h.symm
      | exact h
  · intro op data s h
    simp only [CipherOperation.update_associated,
      CipherOperation.update_associatedAux] at h
    split at h
    all_goals simp at h
    all_goals first
      | exact h.symm
      | exact h
  · intro op c data s hc h
    obtain ⟨ctx, cipherF⟩ := op
    simp only at hc
    subst hc
    simp only [CipherOperation.update] at h
    split at h
    all_goals simp at h
    all_goals first
      | exact h.symm
      | exact h
  · intro op c s hc h
    obtain ⟨ctx, cipherF⟩ := op
    simp only at hc
    subst hc
    simp only [CipherOperation.finalize] at h
    split at h
    all_goals simp at h
    all_goals first
      | exact h.symm
      | exact h
  · intro op tl s h
    simp only [CipherOperation.get_tag] at h
    split at h
    all_goals simp at h
    all_goals first
      | exact h.symm
      | exact h
  · intro op t s h
    simp only [CipherOperation.set_tag] at h
    split at h
    all_goals simp at h
    all_goals first
      | exact h.symm
      | exact h
  · intro op s h
    simp [CipherOperation.del, evpCtxCleanup] at h
  · intro name s h
    rcases hlook : evpGetCipherByName name with _ | alg
    · simp only [mkCipher, hlook] at h
      left
      exact ((Except.error.injEq _ _).mp h).symm
    · simp only [mkCipher, hlook] at h
      by_cases hc : strContains (lowerString name) "ccm" = true
      · rw [if_pos hc] at h
        right
        exact ((Except.error.injEq _ _).mp h).symm
      · rw [if_neg hc] at h
        exact Except.noConfusion h
  · intro name hcontra
    have hlen := congrArg String.length hcontra
    rw [String.length_append] at hlen
    have h16 : ("Unknown cipher: " : String).length = 16 := rfl
    have h16b : ("Cipher exception" : String).length = 16 := rfl
    rw [h16, h16b] at hlen
    obtain ⟨dat⟩ := name
    have hd : dat = [] := by
      have : (String.mk dat).length = 0 := by omega
      simpa [String.length] using this
    subst hd
    exact absurd hcontra (by decide)

/-- Witness for C10: a `_check` failure (wrong key length) whose message
is exactly the generic one. -/
theorem C10_witness :
    Cipher.op cipherCbc [] ivA16 1 = Except.error "Cipher exception" ∧
    ("Cipher exception" : String) = "Cipher exception" :=
  ⟨rfl, (C10_uniform_exception_messages).1 cipherCbc [] ivA16 1 "Cipher exception" rfl⟩

end Petlib
